import Mathlib

/-!
# Verification of the dupedog deduplication engine specification

This file shallowly embeds the core data model and algorithms of the
dupedog repository (Go) and proves, or refutes, the frozen claims about
its specification.

Conventions of the embedding:
* Go `string` values are byte sequences; we model them as `List Nat`
  (each entry < 256 in well-formed data).  Go's `<` on strings is
  bytewise lexicographic order, modelled by `strLt`.
* Go `int64` is modelled as `Int` (with explicit `% 2^64` where the code
  can overflow), `uint64`/`uint32` as `Nat`.
* `time.Time` values are modelled by their nanosecond count (`Int`),
  matching `UnixNano` and `Equal`/`After` comparisons.
* Stateful code that touches the filesystem is embedded as a pure
  function over an explicit oracle describing syscall outcomes, and
  returns a trace of the mutating operations it performed.
-/

namespace Dupedog

/-- A Go string: a sequence of bytes. -/
abbrev GoString := List Nat

/-- Bytewise lexicographic strict order on byte strings: Go's `s < t`. -/
def strLt : GoString → GoString → Bool
  | [], [] => false
  | [], _ :: _ => true
  | _ :: _, [] => false
  | a :: s, b :: t => if a < b then true else if b < a then false else strLt s t

/-- `strLe s t` iff not `t < s`; used for ascending sorts (`cmp.Compare ≤ 0`). -/
def strLe (s t : GoString) : Bool := !(strLt t s)

/-- Go `strings.HasPrefix p` on byte strings. -/
def hasPref : GoString → GoString → Bool
  | _, [] => true
  | [], _ :: _ => false
  | a :: s, b :: t => a == b && hasPref s t

/-- Helper to write ASCII byte strings in concrete examples. -/
def gs (s : String) : GoString := s.data.map Char.toNat

/-- `types.FileInfo`: metadata for a scanned file (internal/types).
`path` is the byte sequence of the Go string; `mtime` is the modification
time in nanoseconds (`ModTime.UnixNano()`). -/
structure FileInfo where
  path : GoString
  size : Int
  mtime : Int
  dev : Nat
  ino : Nat
  nlink : Nat
deriving Repr, DecidableEq, Inhabited

/-- A `types.SiblingGroup`: files sharing an inode, sorted by path. -/
abbrev SiblingGroup := List FileInfo

/-- A `types.CandidateGroup`: sibling groups of one size, sorted by first path. -/
abbrev CandidateGroup := List SiblingGroup

/-- `Sorted.First` on a sibling group: first element, or the zero
`FileInfo` when empty (Go returns the zero value of the type). -/
def sgFirst (sg : SiblingGroup) : FileInfo := sg.headD default

/-- `Sorted.First` on a candidate group: first sibling group or empty. -/
def cgFirst (cg : CandidateGroup) : SiblingGroup := cg.headD []

/-- `candidateGroup.First().First().Size` as used by `nextJob`. -/
def cgFileSize (cg : CandidateGroup) : Int := (sgFirst (cgFirst cg)).size

/-! ## Verifier range schedule (`nextJob`, internal/verifier) -/

/-- `probeSize`: the 1 MiB head/tail probe size. -/
def probeSize : Int := 1048576

/-- `chunkSize`: the 1 GiB chunk size. -/
def chunkSize : Int := 1073741824

/-- `verifier.job`: a unit of verification work.  `siblings` is the
candidate group being verified, `[start, start+size)` the byte range to
hash, `totalBytes` the cumulative bytes hashed including this job. -/
structure Job where
  siblings : CandidateGroup
  start : Int
  size : Int
  totalBytes : Int
deriving Repr, DecidableEq

/-- `verifier.nextJob`: the next verification job, or `none` when
verification is complete (the Go function returns `(job{}, true)`).
Mirrors the four branches of the source: INITIAL, DONE, AFTER_HEAD,
IN_CHUNKS. -/
def nextJob (prev : Option Job) (candidateGroup : CandidateGroup) : Option Job :=
  let fileSize := cgFileSize candidateGroup
  match prev with
  | none =>
      let size := min probeSize fileSize
      some { siblings := candidateGroup, start := 0, size := size, totalBytes := size }
  | some p =>
      if p.totalBytes = fileSize then
        none
      else if p.totalBytes = probeSize then
        let remaining := fileSize - probeSize
        let size := min probeSize remaining
        let start := max probeSize remaining
        some { siblings := candidateGroup, start := start, size := size,
               totalBytes := probeSize + size }
      else
        let start := p.totalBytes - probeSize
        let size := min chunkSize (fileSize - p.totalBytes)
        some { siblings := candidateGroup, start := start, size := size,
               totalBytes := p.totalBytes + size }

end Dupedog

namespace Dupedog

/-- C1: the four branch equations of `nextJob` stated against the spec's
range-schedule table. -/
theorem nextJob_schedule (cg : CandidateGroup) (S : Int)
    (hS : cgFileSize cg = S) (_hpos : 0 < S) :
    (nextJob none cg =
       some { siblings := cg, start := 0, size := min probeSize S,
              totalBytes := min probeSize S })
    ∧ (∀ p : Job, p.totalBytes = S → nextJob (some p) cg = none)
    ∧ (∀ p : Job, p.totalBytes = probeSize → p.totalBytes ≠ S →
         nextJob (some p) cg =
           some { siblings := cg, start := max probeSize (S - probeSize),
                  size := min probeSize (S - probeSize),
                  totalBytes := probeSize + min probeSize (S - probeSize) }
         ∧ max probeSize (S - probeSize) + min probeSize (S - probeSize) = S)
    ∧ (∀ p : Job, p.totalBytes ≠ S → p.totalBytes ≠ probeSize →
         nextJob (some p) cg =
           some { siblings := cg, start := p.totalBytes - probeSize,
                  size := min chunkSize (S - p.totalBytes),
                  totalBytes := p.totalBytes + min chunkSize (S - p.totalBytes) }) := by
  subst hS
  refine ⟨rfl, ?_, ?_, ?_⟩
  · intro p hp
    simp [nextJob, hp]
  · intro p hp hne
    constructor
    · simp [nextJob, hp, hne]
      intro h
      exact absurd (hp.trans h) hne
    · rcases le_total probeSize (cgFileSize cg - probeSize) with h | h
      · rw [max_eq_right h, min_eq_left h]; ring
      · rw [max_eq_left h, min_eq_right h]; ring
  · intro p hne hnp
    simp [nextJob, hne, hnp]

/-- C1 witness: the schedule equations evaluated at a 3 MiB candidate
group. -/
theorem nextJob_schedule_witness :
    cgFileSize [[{ path := [], size := 3145728, mtime := 0, dev := 0, ino := 7,
                   nlink := 1 }]] = 3145728
    ∧ (0 : Int) < 3145728
    ∧ (nextJob none [[{ path := [], size := 3145728, mtime := 0, dev := 0, ino := 7,
                        nlink := 1 }]] =
        some { siblings := [[{ path := [], size := 3145728, mtime := 0, dev := 0,
                               ino := 7, nlink := 1 }]],
               start := 0, size := min probeSize 3145728,
               totalBytes := min probeSize 3145728 }) := by
  refine ⟨rfl, by decide, ?_⟩
  exact (nextJob_schedule
    [[{ path := [], size := 3145728, mtime := 0, dev := 0, ino := 7, nlink := 1 }]]
    3145728 (by rfl) (by decide)).1

end Dupedog

namespace Dupedog

/-! ## C2: the emitted ranges partition `[0, S)` -/

/-- Membership of a byte offset in a half-open range `[start, start+size)`. -/
def inR (r : Int × Int) (x : Int) : Prop := r.1 ≤ x ∧ x < r.1 + r.2

/-- A byte offset is covered by some range of the list. -/
def covers (rs : List (Int × Int)) (x : Int) : Prop := ∃ r ∈ rs, inR r x

/-- Two ranges are non-overlapping: no byte offset lies in both. -/
def disjR (r r' : Int × Int) : Prop := ∀ x : Int, ¬(inR r x ∧ inR r' x)

theorem disjR_of_sep {r r' : Int × Int} (h : r.1 + r.2 ≤ r'.1) : disjR r r' := by
  rintro x ⟨⟨_, h2⟩, ⟨h3, _⟩⟩
  omega

/-- Each follow-up job strictly advances `totalBytes` towards the file
size (or, from an unreachable over-run state, jumps straight to it). -/
theorem nextJob_progress (cg : CandidateGroup) (j nj : Job)
    (h : nextJob (some j) cg = some nj) :
    (j.totalBytes < cgFileSize cg ∧ j.totalBytes < nj.totalBytes
        ∧ nj.totalBytes ≤ cgFileSize cg)
    ∨ (cgFileSize cg < j.totalBytes ∧ nj.totalBytes = cgFileSize cg) := by
  have hP : probeSize = 1048576 := rfl
  have hC : chunkSize = 1073741824 := rfl
  unfold nextJob at h
  by_cases h1 : j.totalBytes = cgFileSize cg
  · simp [h1] at h
  · simp only [h1, if_false] at h
    by_cases h2 : j.totalBytes = probeSize
    · simp only [h2, if_true] at h
      obtain rfl : nj = _ := (Option.some.injEq _ _).mp h.symm
      simp only
      rcases le_total probeSize (cgFileSize cg - probeSize) with hm | hm
      · rw [min_eq_left hm]; omega
      · rw [min_eq_right hm]; omega
    · simp only [h2, if_false] at h
      obtain rfl : nj = _ := (Option.some.injEq _ _).mp h.symm
      simp only
      rcases le_total chunkSize (cgFileSize cg - j.totalBytes) with hm | hm
      · rw [min_eq_left hm]; omega
      · rw [min_eq_right hm]; omega

/-- The stream of ranges emitted by iterating `nextJob` from job `j`
until it reports done (each entry is `(start, size)`). -/
def jobsFrom (cg : CandidateGroup) (j : Job) : List (Int × Int) :=
  match h : nextJob (some j) cg with
  | none => []
  | some nj => (nj.start, nj.size) :: jobsFrom cg nj
termination_by
  (cgFileSize cg - j.totalBytes).toNat +
    (if j.totalBytes = cgFileSize cg then 0 else 1)
decreasing_by
  rcases nextJob_progress cg j nj h with ⟨h1, h2, h3⟩ | ⟨h1, h2⟩ <;> split_ifs <;> omega

theorem jobsFrom_eq_nil (cg : CandidateGroup) (j : Job)
    (h : nextJob (some j) cg = none) : jobsFrom cg j = [] := by
  rw [jobsFrom]
  split
  · rfl
  · rename_i nj hnj
    rw [h] at hnj
    exact absurd hnj (by simp)

theorem jobsFrom_eq_cons (cg : CandidateGroup) (j nj : Job)
    (h : nextJob (some j) cg = some nj) :
    jobsFrom cg j = (nj.start, nj.size) :: jobsFrom cg nj := by
  rw [jobsFrom]
  split
  · rename_i hnone
    rw [h] at hnone
    exact absurd hnone (by simp)
  · rename_i nj' hnj
    rw [h] at hnj
    obtain rfl : nj' = nj := by simpa using hnj.symm
    rfl

end Dupedog

namespace Dupedog

/-- Chunk phase: iterating from a job with cumulative `T` in
`(probeSize, S]` emits pairwise-disjoint ranges covering exactly
`[T - probeSize, S - probeSize)`. -/
theorem jobsFrom_chunks (n : Nat) : ∀ (cg : CandidateGroup) (j : Job),
    probeSize < j.totalBytes → j.totalBytes ≤ cgFileSize cg →
    (cgFileSize cg - j.totalBytes).toNat = n →
    (∀ x : Int, covers (jobsFrom cg j) x ↔
        (j.totalBytes - probeSize ≤ x ∧ x < cgFileSize cg - probeSize))
    ∧ (∀ r ∈ jobsFrom cg j,
        j.totalBytes - probeSize ≤ r.1 ∧ r.1 + r.2 ≤ cgFileSize cg - probeSize)
    ∧ List.Pairwise disjR (jobsFrom cg j) := by
  induction n using Nat.strong_induction_on with
  | _ n ih =>
    intro cg j hlo hhi hn
    have hP : probeSize = 1048576 := rfl
    have hC : chunkSize = 1073741824 := rfl
    rcases eq_or_lt_of_le hhi with hTS | hTS
    · -- T = S: done, no further ranges
      have hnil : jobsFrom cg j = [] := by
        apply jobsFrom_eq_nil
        unfold nextJob
        simp [hTS]
      rw [hnil]
      refine ⟨?_, by simp, by simp⟩
      intro x
      simp only [covers, List.not_mem_nil, false_and, exists_false, false_iff]
      omega
    · -- T < S: one chunk, then induction
      have hTP : j.totalBytes ≠ probeSize := by omega
      have hne : j.totalBytes ≠ cgFileSize cg := by omega
      set S := cgFileSize cg with hSdef
      set T := j.totalBytes with hTdef
      set m := min chunkSize (S - T) with hm
      have hm1 : 1 ≤ m := by
        rcases le_total chunkSize (S - T) with h | h
        · rw [hm, min_eq_left h]; omega
        · rw [hm, min_eq_right h]; omega
      have hmS : m ≤ S - T := by
        rcases le_total chunkSize (S - T) with h | h
        · rw [hm, min_eq_left h]; omega
        · rw [hm, min_eq_right h]
      have hnj : nextJob (some j) cg =
          some { siblings := cg, start := T - probeSize, size := m,
                 totalBytes := T + m } := by
        unfold nextJob
        simp [hne, hTP]
      have hcons := jobsFrom_eq_cons cg j _ hnj
      have hrec := ih (S - (T + m)).toNat (by omega) cg
        { siblings := cg, start := T - probeSize, size := m, totalBytes := T + m }
        (by simp only; omega) (by simp only; omega) (by simp only)
      obtain ⟨ihcov, ihbnd, ihpw⟩ := hrec
      simp only at ihcov ihbnd ihpw
      rw [hcons]
      refine ⟨?_, ?_, ?_⟩
      · intro x
        simp only [covers, List.mem_cons]
        constructor
        · rintro ⟨r, hr | hr, hx⟩
          · subst hr
            simp only [inR] at hx
            omega
          · have := (ihcov x).mp ⟨r, hr, hx⟩
            omega
        · intro hx
          by_cases hcase : x < T - probeSize + m
          · exact ⟨(T - probeSize, m), Or.inl rfl, by simp [inR]; omega⟩
          · obtain ⟨r, hr, hxr⟩ := (ihcov x).mpr (by omega)
            exact ⟨r, Or.inr hr, hxr⟩
      · intro r hrmem
        rcases List.mem_cons.mp hrmem with hr | hr
        · subst hr
          simp only
          omega
        · have := ihbnd r hr
          omega
      · refine List.Pairwise.cons ?_ ihpw
        intro r hr
        have := ihbnd r hr
        exact disjR_of_sep (by simp only; omega)

/-- The full list of ranges the verifier schedules for a candidate
group: the initial HEAD job followed by iterating `nextJob` to done. -/
def scheduleRanges (cg : CandidateGroup) : List (Int × Int) :=
  match nextJob none cg with
  | none => []
  | some j0 => (j0.start, j0.size) :: jobsFrom cg j0

end Dupedog

namespace Dupedog

theorem disjR_symm {r r' : Int × Int} (h : disjR r r') : disjR r' r :=
  fun x hx => h x ⟨hx.2, hx.1⟩

end Dupedog

namespace Dupedog

/-! Branch equations for `nextJob`, shared by several proofs below. -/

theorem nextJob_done_eq (cg : CandidateGroup) (p : Job)
    (hp : p.totalBytes = cgFileSize cg) : nextJob (some p) cg = none := by
  simp [nextJob, hp]

theorem nextJob_afterHead_eq (cg : CandidateGroup) (p : Job)
    (hp : p.totalBytes = probeSize) (hne : p.totalBytes ≠ cgFileSize cg) :
    nextJob (some p) cg =
      some { siblings := cg, start := max probeSize (cgFileSize cg - probeSize),
             size := min probeSize (cgFileSize cg - probeSize),
             totalBytes := probeSize + min probeSize (cgFileSize cg - probeSize) } := by
  simp only [nextJob]
  rw [if_neg hne, if_pos hp]

theorem nextJob_chunks_eq (cg : CandidateGroup) (p : Job)
    (hne : p.totalBytes ≠ cgFileSize cg) (hnp : p.totalBytes ≠ probeSize) :
    nextJob (some p) cg =
      some { siblings := cg, start := p.totalBytes - probeSize,
             size := min chunkSize (cgFileSize cg - p.totalBytes),
             totalBytes := p.totalBytes + min chunkSize (cgFileSize cg - p.totalBytes) } := by
  simp only [nextJob]
  rw [if_neg hne, if_neg hnp]

/-- C2: for every positive file size, the ranges emitted by iterating
`nextJob` from the initial call to done are pairwise non-overlapping and
their union is exactly `[0, S)` — no byte offset belongs to two emitted
ranges, in all the boundary regimes (`S ≤ 1 MiB`, `1 MiB < S ≤ 2 MiB`,
`S > 2 MiB` with chunks covering `[1 MiB, S - 1 MiB)`). -/
theorem schedule_partition (cg : CandidateGroup) (S : Int)
    (hS : cgFileSize cg = S) (hpos : 0 < S) :
    (∀ x : Int, (0 ≤ x ∧ x < S) ↔ covers (scheduleRanges cg) x)
    ∧ List.Pairwise disjR (scheduleRanges cg) := by
  have hP : probeSize = 1048576 := rfl
  have hsr : scheduleRanges cg = (0, min probeSize S) ::
      jobsFrom cg { siblings := cg, start := 0, size := min probeSize S,
                    totalBytes := min probeSize S } := by
    unfold scheduleRanges nextJob
    rw [hS]
  rcases le_or_lt S probeSize with hSP | hSP
  · -- S ≤ probeSize: a single range covering the whole file
    rw [min_eq_right hSP] at hsr
    have hnil := jobsFrom_eq_nil cg
      { siblings := cg, start := 0, size := S, totalBytes := S }
      (nextJob_done_eq cg _ (by simp only; omega))
    rw [hsr, hnil]
    refine ⟨?_, by simp⟩
    intro x
    constructor
    · intro hx
      exact ⟨(0, S), by simp, by simp [inR]; omega⟩
    · rintro ⟨r, hr, hx⟩
      simp only [List.mem_singleton] at hr
      subst hr
      simp [inR] at hx
      omega
  · -- probeSize < S: HEAD first
    rw [min_eq_left hSP.le] at hsr
    rcases le_or_lt S (2 * probeSize) with hS2 | hS2
    · -- 1 MiB < S ≤ 2 MiB: HEAD then the exact remainder, no overlap
      have hj1 : nextJob
          (some { siblings := cg, start := 0, size := probeSize,
                  totalBytes := probeSize }) cg =
          some { siblings := cg, start := probeSize, size := S - probeSize,
                 totalBytes := probeSize + (S - probeSize) } := by
        rw [nextJob_afterHead_eq cg _ rfl (by simp only; omega)]
        rw [hS, min_eq_right (by omega), max_eq_left (by omega)]
      rw [hsr, jobsFrom_eq_cons _ _ _ hj1]
      have hnil := jobsFrom_eq_nil cg
        { siblings := cg, start := probeSize, size := S - probeSize,
          totalBytes := probeSize + (S - probeSize) }
        (nextJob_done_eq cg _ (by simp only; omega))
      rw [hnil]
      refine ⟨?_, ?_⟩
      · intro x
        constructor
        · intro hx
          by_cases hc : x < probeSize
          · exact ⟨(0, probeSize), by simp, by simp [inR]; omega⟩
          · exact ⟨(probeSize, S - probeSize), by simp, by simp [inR]; omega⟩
        · rintro ⟨r, hr, hx⟩
          simp only [List.mem_cons, List.not_mem_nil, or_false] at hr
          rcases hr with rfl | rfl <;> (simp [inR] at hx; omega)
      · refine List.Pairwise.cons ?_ (by simp)
        intro r hr
        simp only [List.mem_cons, List.not_mem_nil, or_false] at hr
        subst hr
        exact disjR_of_sep (show (0 : Int) + probeSize ≤ probeSize by omega)
    · -- S > 2 MiB: HEAD, TAIL, then chunks over [probeSize, S - probeSize)
      have hj1 : nextJob
          (some { siblings := cg, start := 0, size := probeSize,
                  totalBytes := probeSize }) cg =
          some { siblings := cg, start := S - probeSize, size := probeSize,
                 totalBytes := probeSize + probeSize } := by
        rw [nextJob_afterHead_eq cg _ rfl (by simp only; omega)]
        rw [hS, min_eq_left (by omega), max_eq_right (by omega)]
      rw [hsr, jobsFrom_eq_cons _ _ _ hj1]
      obtain ⟨ccov, cbnd, cpw⟩ := jobsFrom_chunks
        (cgFileSize cg - (probeSize + probeSize)).toNat cg
        { siblings := cg, start := S - probeSize, size := probeSize,
          totalBytes := probeSize + probeSize }
        (by simp only; omega) (by simp only; omega) rfl
      simp only [hS] at ccov cbnd
      refine ⟨?_, ?_⟩
      · intro x
        constructor
        · intro hx
          rcases lt_or_le x probeSize with hc | hc
          · exact ⟨(0, probeSize), by simp, by simp [inR]; omega⟩
          · rcases le_or_lt (S - probeSize) x with hc2 | hc2
            · exact ⟨(S - probeSize, probeSize), by simp, by simp [inR]; omega⟩
            · obtain ⟨r, hr, hxr⟩ := (ccov x).mpr
                (show probeSize + probeSize - probeSize ≤ x ∧ x < S - probeSize by omega)
              exact ⟨r, List.mem_cons_of_mem _ (List.mem_cons_of_mem _ hr), hxr⟩
        · rintro ⟨r, hr, hx⟩
          simp only [List.mem_cons] at hr
          rcases hr with rfl | rfl | hr
          · simp [inR] at hx; omega
          · simp [inR] at hx; omega
          · have hb := cbnd r hr
            simp only at hb
            simp only [inR] at hx
            omega
      · refine List.Pairwise.cons ?_ (List.Pairwise.cons ?_ cpw)
        · intro r hr
          rcases List.mem_cons.mp hr with rfl | hr
          · exact disjR_of_sep (by simp only; omega)
          · have hb := cbnd r hr
            simp only at hb
            exact disjR_of_sep (by simp only; omega)
        · intro r hr
          have hb := cbnd r hr
          simp only at hb
          exact disjR_symm (disjR_of_sep (by simp only; omega))

/-- C2 witness: the partition property evaluated at a concrete 2.5 MiB
candidate group. -/
theorem schedule_partition_witness :
    cgFileSize [[{ path := [], size := 2621440, mtime := 0, dev := 0, ino := 9,
                   nlink := 1 }]] = 2621440
    ∧ (0 : Int) < 2621440
    ∧ ((∀ x : Int, (0 ≤ x ∧ x < 2621440) ↔
          covers (scheduleRanges
            [[{ path := [], size := 2621440, mtime := 0, dev := 0, ino := 9,
                nlink := 1 }]]) x)
        ∧ List.Pairwise disjR (scheduleRanges
            [[{ path := [], size := 2621440, mtime := 0, dev := 0, ino := 9,
                nlink := 1 }]])) := by
  refine ⟨rfl, by decide, ?_⟩
  exact schedule_partition
    [[{ path := [], size := 2621440, mtime := 0, dev := 0, ino := 9, nlink := 1 }]]
    2621440 (by rfl) (by decide)

end Dupedog

namespace Dupedog

/-! ## C7: orphaned-tmp cleanup policy (`tryCleanupOrphanedTmp`,
internal/deduper) -/

/-- The result of `os.Lstat` on the tmp file, as inspected by
`tryCleanupOrphanedTmp`: modification time in nanoseconds, the two mode
predicates the code tests, and the link count from `syscall.Stat_t`. -/
structure LstatInfo where
  mtime : Int
  isSymlink : Bool
  isRegular : Bool
  nlink : Nat
deriving Repr, DecidableEq

/-- Outcome of `tryCleanupOrphanedTmp`: either `os.Remove` is invoked on
the tmp file (`removed`), or an error is returned and the file is left in
place (the three error constructors mirror the three error returns after
a successful `Lstat`; the `Lstat`-failure early return concerns a missing
file and is outside the claim). -/
inductive CleanupResult where
  | removed
  | errTooRecent
  | errNotRegular
  | errOnlyCopy
deriving Repr, DecidableEq

/-- `orphanedTmpMaxAge`: one minute, in nanoseconds. -/
def orphanedTmpMaxAge : Int := 60000000000

/-- `deduper.tryCleanupOrphanedTmp` after a successful `Lstat`:
age check (`info.ModTime().After(cutoff)` with `cutoff = now - maxAge`),
then symlink, regular-file and `nlink` checks, in source order.  The
`info.Sys().(*syscall.Stat_t)` cast always succeeds on unix. -/
def tryCleanupOrphanedTmp (info : LstatInfo) (now maxAge : Int) : CleanupResult :=
  let cutoff := now - maxAge
  if info.mtime > cutoff then .errTooRecent
  else if info.isSymlink then .removed
  else if !info.isRegular then .errNotRegular
  else if info.nlink ≤ 1 then .errOnlyCopy
  else .removed

/-- C7: the tmp file is removed iff its mtime is at least one minute old
(not after the cutoff `now - 1 min`) and it is a symlink or a regular
file with link count above 1; in every other case an error is returned.
In particular a regular file with link count 1 is never deleted,
whatever its age. -/
theorem tryCleanup_policy (info : LstatInfo) (now : Int) :
    (tryCleanupOrphanedTmp info now orphanedTmpMaxAge = .removed ↔
      (info.mtime ≤ now - orphanedTmpMaxAge ∧
        (info.isSymlink = true ∨ (info.isRegular = true ∧ 1 < info.nlink))))
    ∧ (info.isSymlink = false → info.isRegular = true → info.nlink = 1 →
        tryCleanupOrphanedTmp info now orphanedTmpMaxAge ≠ .removed) := by
  constructor
  · simp only [tryCleanupOrphanedTmp]
    by_cases hage : info.mtime > now - orphanedTmpMaxAge
    · rw [if_pos hage]
      constructor
      · intro h
        exact absurd h (by simp)
      · rintro ⟨ha, -⟩
        omega
    · rw [if_neg hage]
      by_cases hsym : info.isSymlink = true
      · rw [if_pos hsym]
        exact ⟨fun _ => ⟨by omega, Or.inl hsym⟩, fun _ => rfl⟩
      · rw [if_neg hsym]
        by_cases hreg : info.isRegular = true
        · rw [if_neg (by simp [hreg])]
          by_cases hnl : info.nlink ≤ 1
          · rw [if_pos hnl]
            constructor
            · intro h
              exact absurd h (by simp)
            · rintro ⟨-, h | ⟨-, hn⟩⟩
              · exact absurd h hsym
              · omega
          · rw [if_neg hnl]
            exact ⟨fun _ => ⟨by omega, Or.inr ⟨hreg, by omega⟩⟩, fun _ => rfl⟩
        · rw [if_pos (by simp [Bool.not_eq_true] at hreg; simp [hreg])]
          constructor
          · intro h
            exact absurd h (by simp)
          · rintro ⟨-, h | ⟨hr, -⟩⟩
            · exact absurd h hsym
            · exact absurd hr hreg
  · intro hs hr hn
    by_cases hage : info.mtime > now - orphanedTmpMaxAge
    · simp [tryCleanupOrphanedTmp, hage]
    · simp [tryCleanupOrphanedTmp, hage, hs, hr, hn]

end Dupedog

namespace Dupedog

/-! ## C6: mtime barrier in `Deduper.dedupeFile` (internal/deduper) -/

/-- `deduper.ActionType`. -/
inductive ActionType where
  | hardlink
  | symlink
  | skipped
deriving Repr, DecidableEq

/-- `deduper.DedupeResult` (the `String` fields are byte strings; `err`
is `none` for a nil error, `some msg` otherwise). -/
structure DedupeResult where
  source : GoString
  target : GoString
  action : ActionType
  bytesSaved : Int
  err : Option GoString
deriving Repr, DecidableEq

/-- Mutating filesystem calls `dedupeFile` can issue.  `CreateHardlink`
and `CreateSymlink` are the only callees that link, symlink, rename or
remove anything; every other syscall in `dedupeFile` (`Open`, `Flock`,
`Stat`, `Close`) is read-only. -/
inductive FsMut where
  | createHardlink (source target : GoString)
  | createSymlink (source target : GoString)
deriving Repr, DecidableEq

/-- Oracle for the syscall outcomes observed by one `dedupeFile` call:
`openErr`/`flockFails`/`statErr` describe the lock-and-stat prologue,
`statMtime` is the mtime the open handle reports, and
`hardlinkErr`/`hardlinkIsEXDEV`/`symlinkErr` describe the outcomes of the
link attempts, would they be made. -/
structure FsOracle where
  openErr : Option GoString
  flockFails : Bool
  statErr : Option GoString
  statMtime : Int
  hardlinkErr : Option GoString
  hardlinkIsEXDEV : Bool
  symlinkErr : Option GoString
deriving Repr, DecidableEq

/-- `Deduper.dedupeFile`, embedded over the oracle; returns the
`DedupeResult` and the trace of mutating calls issued, in order. -/
def dedupeFile (dryRun symlinkFallback : Bool) (o : FsOracle)
    (source target : FileInfo) : DedupeResult × List FsMut :=
  match o.openErr with
  | some e =>
      ({ source := source.path, target := target.path, action := .skipped,
         bytesSaved := 0, err := some e }, [])
  | none =>
  if o.flockFails then
    ({ source := source.path, target := target.path, action := .skipped,
       bytesSaved := 0, err := some (gs "file in use (locked by another process)") }, [])
  else
  match o.statErr with
  | some e =>
      ({ source := source.path, target := target.path, action := .skipped,
         bytesSaved := 0, err := some e }, [])
  | none =>
  if ¬(o.statMtime = target.mtime) then
    ({ source := source.path, target := target.path, action := .skipped,
       bytesSaved := 0, err := some (gs "file modified since scan") }, [])
  else if dryRun then
    ({ source := source.path, target := target.path, action := .hardlink,
       bytesSaved := target.size, err := none }, [])
  else
    match o.hardlinkErr with
    | none =>
        ({ source := source.path, target := target.path, action := .hardlink,
           bytesSaved := target.size, err := none },
         [.createHardlink source.path target.path])
    | some e =>
      if o.hardlinkIsEXDEV then
        if ¬symlinkFallback then
          ({ source := source.path, target := target.path, action := .skipped,
             bytesSaved := 0,
             err := some (gs "cannot hardlink across device boundaries (use --symlink-fallback)") },
           [.createHardlink source.path target.path])
        else
          match o.symlinkErr with
          | none =>
              ({ source := source.path, target := target.path, action := .symlink,
                 bytesSaved := target.size, err := none },
               [.createHardlink source.path target.path,
                .createSymlink source.path target.path])
          | some e' =>
              ({ source := source.path, target := target.path, action := .skipped,
                 bytesSaved := 0, err := some e' },
               [.createHardlink source.path target.path,
                .createSymlink source.path target.path])
      else
        ({ source := source.path, target := target.path, action := .skipped,
           bytesSaved := 0, err := some e },
         [.createHardlink source.path target.path])

/-- C6: when the mtime observed through the open handle differs from the
mtime the Scanner recorded, `dedupeFile` returns a skip result citing
"file modified since scan" and issues no mutating filesystem call at all
(no link, symlink, rename or remove), in every mode. -/
theorem dedupeFile_mtime_barrier (dryRun symlinkFallback : Bool)
    (o : FsOracle) (source target : FileInfo)
    (hopen : o.openErr = none) (hflock : o.flockFails = false)
    (hstat : o.statErr = none) (hmt : o.statMtime ≠ target.mtime) :
    dedupeFile dryRun symlinkFallback o source target =
      ({ source := source.path, target := target.path, action := .skipped,
         bytesSaved := 0, err := some (gs "file modified since scan") }, []) := by
  simp [dedupeFile, hopen, hflock, hstat, hmt]

/-- C6 witness: a concrete target whose observed mtime (200) differs from
the scanned mtime (100) is skipped with no mutation. -/
theorem dedupeFile_mtime_barrier_witness :
    ({ openErr := none, flockFails := false, statErr := none, statMtime := 200,
       hardlinkErr := none, hardlinkIsEXDEV := false,
       symlinkErr := none } : FsOracle).openErr = none
    ∧ dedupeFile false false
        { openErr := none, flockFails := false, statErr := none, statMtime := 200,
          hardlinkErr := none, hardlinkIsEXDEV := false, symlinkErr := none }
        { path := gs "/d/src", size := 5, mtime := 100, dev := 1, ino := 2, nlink := 1 }
        { path := gs "/d/tgt", size := 5, mtime := 100, dev := 1, ino := 3, nlink := 1 } =
      ({ source := gs "/d/src", target := gs "/d/tgt", action := .skipped,
         bytesSaved := 0, err := some (gs "file modified since scan") }, []) := by
  refine ⟨rfl, ?_⟩
  exact dedupeFile_mtime_barrier false false _ _ _ rfl rfl rfl (by decide)

end Dupedog

namespace Dupedog

/-! ## Hash cache (internal/cache): `makeKey`, `Lookup`, `Store` -/

/-- Big-endian 8-byte encoding of a 64-bit value, as written by
`binary.Write(buf, binary.BigEndian, v)`; for values `< 2^64` this is
the exact wire format. -/
def be64 (n : Nat) : List Nat :=
  [n / 72057594037927936 % 256, n / 281474976710656 % 256,
   n / 1099511627776 % 256, n / 4294967296 % 256,
   n / 16777216 % 256, n / 65536 % 256, n / 256 % 256, n % 256]

/-- `binary.Write` of an `int64`: the two's-complement bit pattern,
i.e. the value mod `2^64`, in big-endian. -/
def be64i (i : Int) : List Nat := be64 ((i % 18446744073709551616).toNat)

/-- `cache.keyVersion`. -/
def keyVersion : Nat := 1

/-- `cache.hashSize`. -/
def hashSize : Nat := 32

/-- `cache.makeKey`: `ver(1) + path + NUL + fileSize(8) + ino(8) +
mtime(8) + start(8) + size(8)`, all multi-byte fields big-endian. -/
def makeKey (fi : FileInfo) (start size : Int) : List Nat :=
  [keyVersion] ++ fi.path ++ [0] ++ be64i fi.size ++ be64 fi.ino
    ++ be64i fi.mtime ++ be64i start ++ be64i size

/-- A BoltDB bucket: an association from byte keys to byte values.
`Put` prepends; `lookup` returns the most recent binding. -/
abbrev DB := List (List Nat × List Nat)

/-- `cache.Cache`: enabled flag, read database (previous session's file,
if present) and write database (this session's `.new` file). -/
structure Cache where
  enabled : Bool
  readDB : Option DB
  writeDB : Option DB
deriving Repr, DecidableEq

/-- `Cache.Store`: silent no-op (nil error, nothing persisted) when the
cache is disabled, the write database is absent, or the hash is not
exactly 32 bytes; otherwise `Put`s the entry in the write database. -/
def cacheStore (c : Cache) (fi : FileInfo) (start size : Int)
    (hash : List Nat) : Cache × Option GoString :=
  if c.enabled = false ∨ c.writeDB = none ∨ hash.length ≠ hashSize then
    (c, none)
  else
    let newDB := (makeKey fi start size, hash) :: c.writeDB.getD []
    ({ c with writeDB := some newDB }, none)

/-- `Cache.Lookup`: returns `none` when disabled or without a read
database; otherwise fetches the key's value and treats any value whose
length is not exactly 32 bytes as a miss.  On a hit the entry is copied
into the write database (self-cleaning) and the hash returned. -/
def cacheLookup (c : Cache) (fi : FileInfo) (start size : Int) :
    Option (List Nat) × Cache :=
  if c.enabled = false ∨ c.readDB = none then
    (none, c)
  else
    match (c.readDB.getD []).lookup (makeKey fi start size) with
    | none => (none, c)
    | some data =>
        if data.length = hashSize then
          (some data, (cacheStore c fi start size data).1)
        else
          (none, c)

/-- C10: `Store` is a silent no-op — `nil` error, nothing persisted —
whenever the cache is disabled, the write database is absent, or the
hash is not exactly 32 bytes long; and `Lookup` treats a stored value
whose length is not 32 bytes as a miss. -/
theorem cache_degraded_modes :
    (∀ (c : Cache) (fi : FileInfo) (start size : Int) (hash : List Nat),
       (c.enabled = false ∨ c.writeDB = none ∨ hash.length ≠ hashSize) →
       cacheStore c fi start size hash = (c, none))
    ∧ (∀ (c : Cache) (db : DB) (fi : FileInfo) (start size : Int) (data : List Nat),
       c.enabled = true → c.readDB = some db →
       db.lookup (makeKey fi start size) = some data → data.length ≠ hashSize →
       cacheLookup c fi start size = (none, c)) := by
  constructor
  · intro c fi start size hash h
    simp [cacheStore, h]
  · intro c db fi start size data hen hdb hlk hlen
    rw [cacheLookup, if_neg (by simp [hen, hdb])]
    simp only [hdb, Option.getD_some, hlk]
    rw [if_neg hlen]

/-- C10 witness: a disabled cache ignores a store; a 31-byte stored value
is a miss. -/
theorem cache_degraded_modes_witness :
    (({ enabled := false, readDB := none, writeDB := none } : Cache).enabled = false
      ∨ ({ enabled := false, readDB := none, writeDB := none } : Cache).writeDB = none
      ∨ (List.replicate 32 7).length ≠ hashSize)
    ∧ cacheStore { enabled := false, readDB := none, writeDB := none }
        { path := [], size := 1, mtime := 2, dev := 3, ino := 4, nlink := 5 } 0 1
        (List.replicate 32 7) =
      ({ enabled := false, readDB := none, writeDB := none }, none)
    ∧ cacheLookup
        { enabled := true,
          readDB := some [(makeKey
            { path := [], size := 1, mtime := 2, dev := 3, ino := 4, nlink := 5 } 0 1,
            List.replicate 31 9)],
          writeDB := some [] }
        { path := [], size := 1, mtime := 2, dev := 3, ino := 4, nlink := 5 } 0 1 =
      (none, { enabled := true,
               readDB := some [(makeKey
                 { path := [], size := 1, mtime := 2, dev := 3, ino := 4, nlink := 5 } 0 1,
                 List.replicate 31 9)],
               writeDB := some [] }) := by
  refine ⟨Or.inl rfl, ?_, ?_⟩
  · exact cache_degraded_modes.1 _ _ _ _ _ (Or.inl rfl)
  · exact cache_degraded_modes.2 _ _ _ 0 1 (List.replicate 31 9) rfl rfl rfl (by decide)

end Dupedog

namespace Dupedog

/-- The range of Go `int64` values. -/
def i64Range (i : Int) : Prop :=
  -9223372036854775808 ≤ i ∧ i < 9223372036854775808

theorem be64_inj {a b : Nat} (ha : a < 18446744073709551616)
    (hb : b < 18446744073709551616) (h : be64 a = be64 b) : a = b := by
  simp only [be64, List.cons.injEq, and_true] at h
  omega

theorem be64i_inj {i j : Int} (hi : i64Range i) (hj : i64Range j)
    (h : be64i i = be64i j) : i = j := by
  unfold be64i at h
  have hi1 : 0 ≤ i % 18446744073709551616 := Int.emod_nonneg i (by decide)
  have hi2 : i % 18446744073709551616 < 18446744073709551616 :=
    Int.emod_lt_of_pos i (by decide)
  have hj1 : 0 ≤ j % 18446744073709551616 := Int.emod_nonneg j (by decide)
  have hj2 : j % 18446744073709551616 < 18446744073709551616 :=
    Int.emod_lt_of_pos j (by decide)
  have := be64_inj (by omega) (by omega) h
  unfold i64Range at hi hj
  omega

theorem makeKey_inj (fi fi' : FileInfo) (s z s' z' : Int)
    (hsz : i64Range fi.size) (hsz' : i64Range fi'.size)
    (hin : fi.ino < 18446744073709551616) (hin' : fi'.ino < 18446744073709551616)
    (hmt : i64Range fi.mtime) (hmt' : i64Range fi'.mtime)
    (hs : i64Range s) (hs' : i64Range s')
    (hz : i64Range z) (hz' : i64Range z')
    (h : makeKey fi s z = makeKey fi' s' z') :
    fi.path = fi'.path ∧ fi.size = fi'.size ∧ fi.ino = fi'.ino
      ∧ fi.mtime = fi'.mtime ∧ s = s' ∧ z = z' := by
  unfold makeKey at h
  obtain ⟨h, hz5⟩ := List.append_inj' h rfl
  obtain ⟨h, hz4⟩ := List.append_inj' h rfl
  obtain ⟨h, hz3⟩ := List.append_inj' h rfl
  obtain ⟨h, hz2⟩ := List.append_inj' h rfl
  obtain ⟨h, hz1⟩ := List.append_inj' h rfl
  obtain ⟨h, -⟩ := List.append_inj' h rfl
  refine ⟨?_, be64i_inj hsz hsz' hz1, be64_inj hin hin' hz2,
    be64i_inj hmt hmt' hz3, be64i_inj hs hs' hz4, be64i_inj hz hz' hz5⟩
  simpa using h

/-- C8: storing a 32-byte hash under `(R, r)` and looking `(R, r)` up in
a later session whose read database is the previous session's write
database returns the hash; the cache key determines — and is determined
by — every component (path, size, inode, mtime in ns, range start, range
size), so a change in any component yields a different byte key and the
lookup misses. -/
theorem cache_semantics :
    (∀ (c c₂ : Cache) (fi : FileInfo) (start size : Int) (H : List Nat),
       c.enabled = true → c.writeDB ≠ none → H.length = hashSize →
       c₂.enabled = true →
       c₂.readDB = (cacheStore c fi start size H).1.writeDB →
       (cacheLookup c₂ fi start size).1 = some H)
    ∧ (∀ (fi fi' : FileInfo) (s z s' z' : Int),
       i64Range fi.size → i64Range fi'.size →
       fi.ino < 18446744073709551616 → fi'.ino < 18446744073709551616 →
       i64Range fi.mtime → i64Range fi'.mtime →
       i64Range s → i64Range s' → i64Range z → i64Range z' →
       makeKey fi s z = makeKey fi' s' z' →
       (fi.path = fi'.path ∧ fi.size = fi'.size ∧ fi.ino = fi'.ino
         ∧ fi.mtime = fi'.mtime ∧ s = s' ∧ z = z'))
    ∧ (∀ (c₂ : Cache) (fi fi' : FileInfo) (s z s' z' : Int) (H : List Nat),
       i64Range fi.size → i64Range fi'.size →
       fi.ino < 18446744073709551616 → fi'.ino < 18446744073709551616 →
       i64Range fi.mtime → i64Range fi'.mtime →
       i64Range s → i64Range s' → i64Range z → i64Range z' →
       c₂.enabled = true → c₂.readDB = some [(makeKey fi s z, H)] →
       ¬(fi'.path = fi.path ∧ fi'.size = fi.size ∧ fi'.ino = fi.ino
          ∧ fi'.mtime = fi.mtime ∧ s' = s ∧ z' = z) →
       (cacheLookup c₂ fi' s' z').1 = none) := by
  refine ⟨?_, makeKey_inj, ?_⟩
  · intro c c₂ fi start size H hen hw hH hen2 hr2
    have hstore : (cacheStore c fi start size H).1.writeDB =
        some ((makeKey fi start size, H) :: c.writeDB.getD []) := by
      rw [cacheStore, if_neg (by simp [hen, hw, hH])]
    rw [cacheLookup, if_neg (by simp [hen2, hr2, hstore])]
    rw [hr2, hstore]
    simp [List.lookup, hH]
  · intro c₂ fi fi' s z s' z' H hsz hsz' hin hin' hmt hmt' hs hs' hz hz' hen2 hr2 hneq
    have hkey : (makeKey fi' s' z' == makeKey fi s z) = false := by
      rw [beq_eq_false_iff_ne]
      intro he
      obtain ⟨a, b, c', d, e, f⟩ :=
        makeKey_inj fi' fi s' z' s z hsz' hsz hin' hin hmt' hmt hs' hs hz' hz he
      exact hneq ⟨a, b, c', d, e, f⟩
    rw [cacheLookup, if_neg (by simp [hen2, hr2])]
    rw [hr2]
    simp [List.lookup, hkey]

end Dupedog

namespace Dupedog

/-- C8 witness: a concrete store in session one is found by session two;
the same key components reproduce the same key; and changing the inode
makes the second-session lookup miss. -/
theorem cache_semantics_witness :
    (({ enabled := true, readDB := none, writeDB := some [] } : Cache).enabled = true
      ∧ (cacheLookup
          { enabled := true,
            readDB := (cacheStore { enabled := true, readDB := none, writeDB := some [] }
              { path := [97], size := 6, mtime := 11, dev := 1, ino := 42, nlink := 1 }
              0 6 (List.replicate 32 5)).1.writeDB,
            writeDB := some [] }
          { path := [97], size := 6, mtime := 11, dev := 1, ino := 42, nlink := 1 }
          0 6).1 = some (List.replicate 32 5))
    ∧ (cacheLookup
        { enabled := true,
          readDB := some [(makeKey
            { path := [97], size := 6, mtime := 11, dev := 1, ino := 42, nlink := 1 } 0 6,
            List.replicate 32 5)],
          writeDB := some [] }
        { path := [97], size := 6, mtime := 11, dev := 1, ino := 43, nlink := 1 }
        0 6).1 = none := by
  refine ⟨⟨rfl, ?_⟩, ?_⟩
  · exact cache_semantics.1
      { enabled := true, readDB := none, writeDB := some [] }
      _ _ 0 6 _ rfl (by simp) rfl rfl rfl
  · exact cache_semantics.2.2
      _ { path := [97], size := 6, mtime := 11, dev := 1, ino := 42, nlink := 1 }
      { path := [97], size := 6, mtime := 11, dev := 1, ino := 43, nlink := 1 }
      0 6 0 6 (List.replicate 32 5)
      ⟨by decide, by decide⟩ ⟨by decide, by decide⟩ (by decide) (by decide)
      ⟨by decide, by decide⟩ ⟨by decide, by decide⟩ ⟨by decide, by decide⟩
      ⟨by decide, by decide⟩ ⟨by decide, by decide⟩ ⟨by decide, by decide⟩
      rfl rfl (by decide)

end Dupedog

namespace Dupedog

/-! ## Byte-string order theory and the `types.NewSorted` sort -/

theorem strLt_irrefl : ∀ s : GoString, strLt s s = false
  | [] => rfl
  | a :: s => by simp [strLt, strLt_irrefl s]

theorem strLt_asymm : ∀ a b : GoString, strLt a b = true → strLt b a = false
  | [], [] => by simp [strLt]
  | [], _ :: _ => fun _ => rfl
  | _ :: _, [] => by simp [strLt]
  | x :: a, y :: b => by
    simp only [strLt]
    by_cases h1 : x < y
    · rw [if_pos h1, if_neg (show ¬y < x by omega), if_pos h1]
      exact fun _ => rfl
    · rw [if_neg h1]
      by_cases h2 : y < x
      · rw [if_pos h2]
        intro h
        simp at h
      · rw [if_neg h2, if_neg h2, if_neg h1]
        exact strLt_asymm a b

theorem strLt_trans : ∀ a b c : GoString,
    strLt a b = true → strLt b c = true → strLt a c = true
  | [], [], _ => by simp [strLt]
  | [], _ :: _, [] => by simp [strLt]
  | [], _ :: _, _ :: _ => by simp [strLt]
  | _ :: _, [], _ => by simp [strLt]
  | _ :: _, _ :: _, [] => by simp [strLt]
  | x :: a, y :: b, z :: c => by
    intro hab hbc
    simp only [strLt] at hab hbc ⊢
    by_cases h1 : x < y
    · by_cases h2 : y < z
      · rw [if_pos (show x < z by omega)]
      · rw [if_neg h2] at hbc
        by_cases h3 : z < y
        · rw [if_pos h3] at hbc
          simp at hbc
        · rw [if_pos (show x < z by omega)]
    · rw [if_neg h1] at hab
      by_cases h2 : y < x
      · rw [if_pos h2] at hab
        simp at hab
      · rw [if_neg h2] at hab
        by_cases h3 : y < z
        · rw [if_pos (show x < z by omega)]
        · rw [if_neg h3] at hbc
          by_cases h4 : z < y
          · rw [if_pos h4] at hbc
            simp at hbc
          · rw [if_neg h4] at hbc
            rw [if_neg (show ¬x < z by omega), if_neg (show ¬z < x by omega)]
            exact strLt_trans a b c hab hbc

theorem strLt_connex : ∀ a b : GoString,
    strLt a b = false → strLt b a = false → a = b
  | [], [] => by simp
  | [], _ :: _ => by simp [strLt]
  | _ :: _, [] => by simp [strLt]
  | x :: a, y :: b => by
    intro hab hba
    simp only [strLt] at hab hba
    by_cases h1 : x < y
    · rw [if_pos h1] at hab
      simp at hab
    · by_cases h2 : y < x
      · rw [if_pos h2] at hba
        simp at hba
      · rw [if_neg h1, if_neg h2] at hab
        obtain rfl : x = y := by omega
        rw [if_neg h1, if_neg h2] at hba
        rw [strLt_connex a b hab hba]

end Dupedog

namespace Dupedog

theorem strLe_refl (a : GoString) : strLe a a = true := by
  simp [strLe, strLt_irrefl]

theorem strLe_total (a b : GoString) : strLe a b = true ∨ strLe b a = true := by
  simp only [strLe, Bool.not_eq_true']
  by_cases h : strLt b a = true
  · exact Or.inr (strLt_asymm b a h)
  · exact Or.inl (by simpa using h)

theorem strLe_trans {a b c : GoString} (hab : strLe a b = true)
    (hbc : strLe b c = true) : strLe a c = true := by
  simp only [strLe, Bool.not_eq_true'] at hab hbc ⊢
  by_cases h : strLt c a = true
  · exfalso
    by_cases hbc2 : strLt b c = true
    · have := strLt_trans b c a hbc2 h
      simp_all
    · have : b = c := strLt_connex b c (by simpa using hbc2) hbc
      subst this
      simp_all
  · simpa using h

end Dupedog

namespace Dupedog

/-- Insert into a list sorted ascending by `key` (helper for the
`types.NewSorted` model). -/
def insertByKey {α : Type} (key : α → GoString) (x : α) : List α → List α
  | [] => [x]
  | y :: ys => if strLe (key x) (key y) then x :: y :: ys
               else y :: insertByKey key x ys

/-- `types.NewSorted`: copy the items and sort them ascending by the
string key (`slices.SortFunc` with `cmp.Compare` on keys; modelled as
insertion sort — same multiset, ascending by the same byte order). -/
def NewSorted {α : Type} (key : α → GoString) : List α → List α
  | [] => []
  | x :: xs => insertByKey key x (NewSorted key xs)

/-- `types.NewSiblingGroup`: files sorted by path. -/
def NewSiblingGroup (files : List FileInfo) : SiblingGroup :=
  NewSorted (fun f => f.path) files

/-- `types.NewCandidateGroup`: sibling groups sorted by first path. -/
def NewCandidateGroup (siblings : List SiblingGroup) : CandidateGroup :=
  NewSorted (fun sg => (sgFirst sg).path) siblings

/-- `types.NewDuplicateGroup`: sibling groups sorted by first path. -/
def NewDuplicateGroup (siblings : List SiblingGroup) : CandidateGroup :=
  NewSorted (fun sg => (sgFirst sg).path) siblings

/-- `types.NewCandidateGroups`: candidate groups sorted by the first
file's path. -/
def NewCandidateGroups (groups : List CandidateGroup) : List CandidateGroup :=
  NewSorted (fun cg => (sgFirst (cgFirst cg)).path) groups

theorem insertByKey_perm {α : Type} (key : α → GoString) (x : α) :
    ∀ l : List α, (insertByKey key x l).Perm (x :: l)
  | [] => List.Perm.refl _
  | y :: ys => by
    unfold insertByKey
    split_ifs with h
    · exact List.Perm.refl _
    · exact ((insertByKey_perm key x ys).cons y).trans (List.Perm.swap x y ys)

theorem NewSorted_perm {α : Type} (key : α → GoString) :
    ∀ l : List α, (NewSorted key l).Perm l
  | [] => List.Perm.refl _
  | x :: xs =>
    (insertByKey_perm key x (NewSorted key xs)).trans
      ((NewSorted_perm key xs).cons x)

theorem NewSorted_mem {α : Type} {key : α → GoString} {l : List α} {a : α} :
    a ∈ NewSorted key l ↔ a ∈ l :=
  (NewSorted_perm key l).mem_iff

theorem NewSorted_length {α : Type} (key : α → GoString) (l : List α) :
    (NewSorted key l).length = l.length :=
  (NewSorted_perm key l).length_eq

theorem insertByKey_pairwise {α : Type} {key : α → GoString} {x : α} {l : List α}
    (hl : l.Pairwise (fun a b => strLe (key a) (key b) = true)) :
    (insertByKey key x l).Pairwise (fun a b => strLe (key a) (key b) = true) := by
  induction l with
  | nil => simp [insertByKey]
  | cons y ys ih =>
    rw [List.pairwise_cons] at hl
    obtain ⟨hy, hys⟩ := hl
    unfold insertByKey
    split_ifs with h
    · refine List.Pairwise.cons ?_ (List.Pairwise.cons hy hys)
      intro b hb
      rcases List.mem_cons.mp hb with rfl | hb
      · exact h
      · exact strLe_trans h (hy b hb)
    · refine List.Pairwise.cons ?_ (ih hys)
      intro b hb
      have hb' := (insertByKey_perm key x ys).mem_iff.mp hb
      rcases List.mem_cons.mp hb' with rfl | hb'
      · rcases strLe_total (key b) (key y) with h' | h'
        · exact absurd h' h
        · exact h'
      · exact hy b hb'

theorem NewSorted_pairwise {α : Type} (key : α → GoString) :
    ∀ l : List α,
      (NewSorted key l).Pairwise (fun a b => strLe (key a) (key b) = true)
  | [] => List.Pairwise.nil
  | x :: xs => insertByKey_pairwise (NewSorted_pairwise key xs)

/-- The first element of a `NewSorted` list has the smallest key. -/
theorem NewSorted_headD_min {α : Type} [Inhabited α] (key : α → GoString)
    (l : List α) :
    ∀ a ∈ NewSorted key l,
      strLe (key ((NewSorted key l).headD default)) (key a) = true := by
  intro a ha
  cases hnc : NewSorted key l with
  | nil => simp [hnc] at ha
  | cons h t =>
    rw [hnc] at ha
    rcases List.mem_cons.mp ha with rfl | ha
    · simp [hnc, strLe_refl]
    · have := NewSorted_pairwise key l
      rw [hnc, List.pairwise_cons] at this
      simpa [hnc] using this.1 a ha

end Dupedog

namespace Dupedog

/-! ## C5: `selectSource` (internal/deduper) -/

/-- Inner loop of `selectSource`'s priority phase: first file of the
sibling group whose path has `pref` as a prefix. -/
def findInFiles (pref : GoString) : List FileInfo → Option FileInfo
  | [] => none
  | f :: fs => if hasPref f.path pref then some f else findInFiles pref fs

/-- Middle loop: scan the sibling groups in order for `pref`. -/
def findInGroups (pref : GoString) : List SiblingGroup → Option FileInfo
  | [] => none
  | sibs :: rest =>
    match findInFiles pref sibs with
    | some f => some f
    | none => findInGroups pref rest

/-- Outer loop: the CLI root paths are tried in CLI order (this is the
loop nesting of the source: `for pref { for siblings { for f } }`). -/
def findByPriority : List GoString → List SiblingGroup → Option FileInfo
  | [], _ => none
  | pref :: rest, groups =>
    match findInGroups pref groups with
    | some f => some f
    | none => findByPriority rest groups

/-- Fallback loop of `selectSource`: keep the representative (first file)
of the sibling group with the highest `Nlink`, breaking ties towards the
lexicographically smaller path (`best == nil || rep.Nlink > best.Nlink
|| (rep.Nlink == best.Nlink && rep.Path < best.Path)`). -/
def bestLoop (best : Option FileInfo) : List SiblingGroup → Option FileInfo
  | [] => best
  | sibs :: rest =>
    let rep := sgFirst sibs
    match best with
    | none => bestLoop (some rep) rest
    | some b =>
        if b.nlink < rep.nlink ∨ (rep.nlink = b.nlink ∧ strLt rep.path b.path = true) then
          bestLoop (some rep) rest
        else
          bestLoop (some b) rest

/-- `deduper.selectSource`: path-prefix priority first, then the
nlink/lexicographic fallback. -/
def selectSource (dupeGroup : List SiblingGroup) (pathPriority : List GoString) :
    Option FileInfo :=
  match findByPriority pathPriority dupeGroup with
  | some f => some f
  | none => bestLoop none dupeGroup

/-- The priority rule exactly as claim C5 words it (path-major): scan all
paths in group-order then within-group order and the first path having
ANY CLI root as a prefix wins. -/
def claimPrioritySelect (dupeGroup : List SiblingGroup)
    (pathPriority : List GoString) : Option FileInfo :=
  (dupeGroup.flatten).find? (fun f => pathPriority.any (fun pref => hasPref f.path pref))

end Dupedog

namespace Dupedog

theorem findInFiles_eq (pref : GoString) :
    ∀ fs : List FileInfo,
      findInFiles pref fs = fs.find? (fun f => hasPref f.path pref)
  | [] => rfl
  | f :: fs => by
    unfold findInFiles
    by_cases h : hasPref f.path pref = true
    · simp [h, List.find?_cons]
    · simp only [Bool.not_eq_true] at h
      simp [h, List.find?_cons, findInFiles_eq pref fs]

theorem findInGroups_eq (pref : GoString) :
    ∀ groups : List SiblingGroup,
      findInGroups pref groups =
        (groups.flatten).find? (fun f => hasPref f.path pref)
  | [] => rfl
  | sibs :: rest => by
    unfold findInGroups
    rw [findInFiles_eq, List.flatten_cons, List.find?_append,
      findInGroups_eq pref rest]
    cases h : sibs.find? (fun f => hasPref f.path pref) <;> simp [h, Option.orElse]

theorem findByPriority_eq :
    ∀ (ps : List GoString) (groups : List SiblingGroup),
      findByPriority ps groups =
        ps.findSome? (fun pref =>
          (groups.flatten).find? (fun f => hasPref f.path pref))
  | [], _ => rfl
  | pref :: rest, groups => by
    unfold findByPriority
    rw [findInGroups_eq, findByPriority_eq rest groups, List.findSome?_cons]
    cases h : (groups.flatten).find? (fun f => hasPref f.path pref) with
    | none => rfl
    | some f => rfl

end Dupedog

namespace Dupedog

/-- `r` is at least as good a fallback source as `s`: link count not
smaller, and on equal link counts the path not larger. -/
def beats (r s : FileInfo) : Prop :=
  s.nlink ≤ r.nlink ∧ (s.nlink = r.nlink → strLt s.path r.path = false)

theorem beats_refl (r : FileInfo) : beats r r :=
  ⟨le_refl _, fun _ => strLt_irrefl _⟩

theorem beats_trans {a b c : FileInfo} (hab : beats a b) (hbc : beats b c) :
    beats a c := by
  obtain ⟨h1, h2⟩ := hab
  obtain ⟨h3, h4⟩ := hbc
  refine ⟨le_trans h3 h1, fun heq => ?_⟩
  have hcb : c.nlink = b.nlink := by omega
  have hba : b.nlink = a.nlink := by omega
  have p1 := h4 hcb
  have p2 := h2 hba
  rcases Bool.eq_false_or_eq_true (strLt c.path a.path) with h | h
  · exfalso
    rcases Bool.eq_false_or_eq_true (strLt a.path b.path) with hav | hav
    · have := strLt_trans _ _ _ h hav
      simp_all
    · have : a.path = b.path := strLt_connex _ _ hav p2
      rw [← this] at p1
      simp_all
  · exact h

/-- The Go update condition
`rep.Nlink > best.Nlink || (rep.Nlink == best.Nlink && rep.Path < best.Path)`. -/
theorem beats_of_update {rep b : FileInfo}
    (h : b.nlink < rep.nlink ∨ (rep.nlink = b.nlink ∧ strLt rep.path b.path = true)) :
    beats rep b := by
  rcases h with h | ⟨h1, h2⟩
  · exact ⟨le_of_lt h, fun hb => absurd hb (by omega)⟩
  · exact ⟨le_of_eq h1.symm, fun _ => strLt_asymm _ _ h2⟩

theorem beats_of_keep {rep b : FileInfo}
    (h : ¬(b.nlink < rep.nlink ∨ (rep.nlink = b.nlink ∧ strLt rep.path b.path = true))) :
    beats b rep := by
  push_neg at h
  obtain ⟨h1, h2⟩ := h
  refine ⟨by omega, fun heq => ?_⟩
  simpa using h2 heq

/-- Invariant of the fallback loop: the result is one of the considered
representatives and beats the seed and every representative scanned. -/
theorem bestLoop_invariant :
    ∀ (groups : List SiblingGroup) (b : FileInfo),
      ∃ r : FileInfo, bestLoop (some b) groups = some r
        ∧ (r = b ∨ ∃ sg ∈ groups, r = sgFirst sg)
        ∧ beats r b
        ∧ (∀ sg ∈ groups, beats r (sgFirst sg))
  | [], b => ⟨b, rfl, Or.inl rfl, beats_refl b, by simp⟩
  | sibs :: rest, b => by
    simp only [bestLoop]
    by_cases hc : b.nlink < (sgFirst sibs).nlink ∨
        ((sgFirst sibs).nlink = b.nlink ∧ strLt (sgFirst sibs).path b.path = true)
    · rw [if_pos hc]
      obtain ⟨r, hr, hmem, hb, hall⟩ := bestLoop_invariant rest (sgFirst sibs)
      refine ⟨r, hr, ?_, beats_trans hb (beats_of_update hc), ?_⟩
      · rcases hmem with rfl | ⟨sg, hsg, rfl⟩
        · exact Or.inr ⟨sibs, List.mem_cons_self _ _, rfl⟩
        · exact Or.inr ⟨sg, List.mem_cons_of_mem _ hsg, rfl⟩
      · intro sg hsg
        rcases List.mem_cons.mp hsg with rfl | hsg
        · exact hb
        · exact hall sg hsg
    · rw [if_neg hc]
      obtain ⟨r, hr, hmem, hb, hall⟩ := bestLoop_invariant rest b
      refine ⟨r, hr, ?_, hb, ?_⟩
      · rcases hmem with rfl | ⟨sg, hsg, rfl⟩
        · exact Or.inl rfl
        · exact Or.inr ⟨sg, List.mem_cons_of_mem _ hsg, rfl⟩
      · intro sg hsg
        rcases List.mem_cons.mp hsg with rfl | hsg
        · exact beats_trans hb (beats_of_keep hc)
        · exact hall sg hsg

end Dupedog

namespace Dupedog

/-- C5 counterexample: with sibling groups at paths `/a/y` and `/b/x`
(group order puts `/a/y` first) and CLI roots `["/b", "/a"]`, the claim's
path-major rule picks `/a/y` (the first path matching any root), but
`selectSource` iterates the roots in the outer loop and returns `/b/x`. -/
theorem selectSource_counterexample :
    selectSource
        (NewDuplicateGroup
          [[{ path := [47, 97, 47, 121], size := 1, mtime := 0, dev := 1,
              ino := 10, nlink := 1 }],
           [{ path := [47, 98, 47, 120], size := 1, mtime := 0, dev := 1,
              ino := 11, nlink := 1 }]])
        [[47, 98], [47, 97]] =
      some { path := [47, 98, 47, 120], size := 1, mtime := 0, dev := 1,
             ino := 11, nlink := 1 }
    ∧ claimPrioritySelect
        (NewDuplicateGroup
          [[{ path := [47, 97, 47, 121], size := 1, mtime := 0, dev := 1,
              ino := 10, nlink := 1 }],
           [{ path := [47, 98, 47, 120], size := 1, mtime := 0, dev := 1,
              ino := 11, nlink := 1 }]])
        [[47, 98], [47, 97]] =
      some { path := [47, 97, 47, 121], size := 1, mtime := 0, dev := 1,
             ino := 10, nlink := 1 }
    ∧ ({ path := [47, 98, 47, 120], size := 1, mtime := 0, dev := 1,
         ino := 11, nlink := 1 } : FileInfo) ≠
        { path := [47, 97, 47, 121], size := 1, mtime := 0, dev := 1,
          ino := 10, nlink := 1 } := by
  refine ⟨?_, ?_, by decide⟩ <;> decide

/-- C5 (amended): the CLI roots are tried in CLI order in the OUTER
loop; the winner is the first path, in group-order then within-group
order, matching the earliest root that matches anything — not the first
path matching any root.  Only when no path matches any root does
selection fall back to the representative with the highest link count,
tie-broken towards the lexicographically smallest first path. -/
theorem selectSource_spec :
    (∀ (dupeGroup : List SiblingGroup) (ps : List GoString),
       selectSource dupeGroup ps =
         match ps.findSome? (fun pref =>
             (dupeGroup.flatten).find? (fun f => hasPref f.path pref)) with
         | some f => some f
         | none => bestLoop none dupeGroup)
    ∧ (∀ (dupeGroup : List SiblingGroup) (ps : List GoString),
       (∀ pref ∈ ps, ∀ f ∈ dupeGroup.flatten, hasPref f.path pref = false) →
       selectSource dupeGroup ps = bestLoop none dupeGroup)
    ∧ (∀ (sibs : SiblingGroup) (rest : List SiblingGroup),
       ∃ r : FileInfo, bestLoop none (sibs :: rest) = some r
         ∧ (∃ sg ∈ sibs :: rest, r = sgFirst sg)
         ∧ (∀ sg ∈ sibs :: rest,
             (sgFirst sg).nlink ≤ r.nlink
             ∧ ((sgFirst sg).nlink = r.nlink →
                 strLt (sgFirst sg).path r.path = false))) := by
  refine ⟨?_, ?_, ?_⟩
  · intro dupeGroup ps
    unfold selectSource
    rw [findByPriority_eq]
  · intro dupeGroup ps h
    unfold selectSource
    rw [findByPriority_eq]
    have hnone : ps.findSome? (fun pref =>
        (dupeGroup.flatten).find? (fun f => hasPref f.path pref)) = none := by
      rw [List.findSome?_eq_none]
      intro pref hp
      rw [List.find?_eq_none]
      intro f hf
      simp [h pref hp f hf]
    rw [hnone]
  · intro sibs rest
    have hstep : bestLoop none (sibs :: rest) =
        bestLoop (some (sgFirst sibs)) rest := by
      simp only [bestLoop]
    obtain ⟨r, hr, hmem, hb, hall⟩ := bestLoop_invariant rest (sgFirst sibs)
    refine ⟨r, hstep.trans hr, ?_, ?_⟩
    · rcases hmem with rfl | ⟨sg, hsg, rfl⟩
      · exact ⟨sibs, List.mem_cons_self _ _, rfl⟩
      · exact ⟨sg, List.mem_cons_of_mem _ hsg, rfl⟩
    · intro sg hsg
      rcases List.mem_cons.mp hsg with rfl | hsg
      · exact ⟨hb.1, hb.2⟩
      · exact ⟨(hall sg hsg).1, (hall sg hsg).2⟩

/-- C5 witness: a group with no path matching the only root `"z"` falls
through to the nlink fallback, which here returns the path-smallest
representative. -/
theorem selectSource_spec_witness :
    selectSource
        [[{ path := [47, 97], size := 1, mtime := 0, dev := 1, ino := 10,
            nlink := 1 }],
         [{ path := [47, 98], size := 1, mtime := 0, dev := 1, ino := 11,
            nlink := 1 }]] [[122]] =
      bestLoop none
        [[{ path := [47, 97], size := 1, mtime := 0, dev := 1, ino := 10,
            nlink := 1 }],
         [{ path := [47, 98], size := 1, mtime := 0, dev := 1, ino := 11,
            nlink := 1 }]] :=
  selectSource_spec.2.1 _ _ (by decide)

end Dupedog

namespace Dupedog

/-! ## C4: `Screener.Run` (internal/screener) -/

/-- A Go `map[κ][]α` built by appended insertion, then iterated: the set
of `(key, bucket)` pairs is determined, the iteration order is not; we
fix first-occurrence order.  Each bucket holds exactly the inputs with
that key. -/
def bucketBy {α κ : Type} [DecidableEq κ] (key : α → κ) (xs : List α) :
    List (κ × List α) :=
  ((xs.map key).dedup).map (fun k => (k, xs.filter (fun x => decide (key x = k))))

/-- `screener.groupByIno`: sibling groups keyed by inode only. -/
def groupByIno (files : List FileInfo) : CandidateGroup :=
  NewCandidateGroup
    ((bucketBy (fun f => f.ino) files).map (fun b => NewSiblingGroup b.2))

/-- `screener.groupByDevIno`: sibling groups keyed by `(device, inode)`. -/
def groupByDevIno (files : List FileInfo) : CandidateGroup :=
  NewCandidateGroup
    ((bucketBy (fun f => (f.dev, f.ino)) files).map (fun b => NewSiblingGroup b.2))

/-- `Screener.Run`: bucket by size, group each bucket by the identity
key (`groupByIno` by default, `groupByDevIno` when
`trustDeviceBoundaries`), keep buckets with at least two sibling groups,
and return the survivors as sorted `CandidateGroups`. -/
def screenerRun (files : List FileInfo) (trustDeviceBoundaries : Bool) :
    List CandidateGroup :=
  NewCandidateGroups
    ((bucketBy (fun f => f.size) files).filterMap (fun b =>
      let siblings :=
        (if trustDeviceBoundaries then groupByDevIno else groupByIno) b.2
      if 2 ≤ siblings.length then some siblings else none))

/-- The files of size `s` (the size bucket's content). -/
def sizeBucket (files : List FileInfo) (s : Int) : List FileInfo :=
  files.filter (fun f => decide (f.size = s))

/-- The distinct inode keys of a list of files. -/
def inoKeys (fs : List FileInfo) : List Nat := (fs.map (fun f => f.ino)).dedup

/-- The distinct `(device, inode)` keys of a list of files. -/
def devInoKeys (fs : List FileInfo) : List (Nat × Nat) :=
  (fs.map (fun f => (f.dev, f.ino))).dedup

/-- One sorted sibling group per distinct inode, holding all its files. -/
def inoClasses (fs : List FileInfo) : List SiblingGroup :=
  (inoKeys fs).map (fun k => NewSiblingGroup (fs.filter (fun f => decide (f.ino = k))))

/-- One sorted sibling group per distinct `(dev, ino)`, holding all its
files. -/
def devInoClasses (fs : List FileInfo) : List SiblingGroup :=
  (devInoKeys fs).map
    (fun k => NewSiblingGroup (fs.filter (fun f => decide ((f.dev, f.ino) = k))))

/-- The identity-key classes selected by `trust_device_boundaries`. -/
def idClasses (trust : Bool) (fs : List FileInfo) : List SiblingGroup :=
  if trust then devInoClasses fs else inoClasses fs

/-- The number of distinct identity keys. -/
def numIdKeys (trust : Bool) (fs : List FileInfo) : Nat :=
  if trust then (devInoKeys fs).length else (inoKeys fs).length

theorem groupByIno_eq (fs : List FileInfo) :
    groupByIno fs = NewCandidateGroup (inoClasses fs) := by
  unfold groupByIno inoClasses bucketBy inoKeys
  rw [List.map_map]
  rfl

theorem groupByDevIno_eq (fs : List FileInfo) :
    groupByDevIno fs = NewCandidateGroup (devInoClasses fs) := by
  unfold groupByDevIno devInoClasses bucketBy devInoKeys
  rw [List.map_map]
  rfl

theorem idClasses_length (trust : Bool) (fs : List FileInfo) :
    (idClasses trust fs).length = numIdKeys trust fs := by
  unfold idClasses numIdKeys inoClasses devInoClasses
  cases trust <;> simp

end Dupedog

namespace Dupedog

theorem headD_mem {α : Type} {l : List α} (d : α) (h : l ≠ []) : l.headD d ∈ l := by
  cases l with
  | nil => exact absurd rfl h
  | cons x xs => simp

theorem inoKeys_mem {fs : List FileInfo} {k : Nat} (h : k ∈ inoKeys fs) :
    ∃ f ∈ fs, f.ino = k := by
  unfold inoKeys at h
  rw [List.mem_dedup] at h
  obtain ⟨f, hf, rfl⟩ := List.mem_map.mp h
  exact ⟨f, hf, rfl⟩

theorem devInoKeys_mem {fs : List FileInfo} {k : Nat × Nat} (h : k ∈ devInoKeys fs) :
    ∃ f ∈ fs, (f.dev, f.ino) = k := by
  unfold devInoKeys at h
  rw [List.mem_dedup] at h
  obtain ⟨f, hf, rfl⟩ := List.mem_map.mp h
  exact ⟨f, hf, rfl⟩

theorem idClasses_ne_nil {trust : Bool} {fs : List FileInfo} :
    ∀ sg ∈ idClasses trust fs, sg ≠ [] := by
  intro sg hsg
  cases trust with
  | false =>
    have hsg' : sg ∈ inoClasses fs := by simpa [idClasses] using hsg
    unfold inoClasses at hsg'
    obtain ⟨k, hk, rfl⟩ := List.mem_map.mp hsg'
    obtain ⟨f, hf, hfk⟩ := inoKeys_mem hk
    have hmem : f ∈ NewSiblingGroup (fs.filter (fun f => decide (f.ino = k))) :=
      NewSorted_mem.mpr (List.mem_filter.mpr ⟨hf, by simp [hfk]⟩)
    intro hnil
    rw [hnil] at hmem
    exact absurd hmem (List.not_mem_nil f)
  | true =>
    have hsg' : sg ∈ devInoClasses fs := by simpa [idClasses] using hsg
    unfold devInoClasses at hsg'
    obtain ⟨k, hk, rfl⟩ := List.mem_map.mp hsg'
    obtain ⟨f, hf, hfk⟩ := devInoKeys_mem hk
    have hmem : f ∈ NewSiblingGroup (fs.filter (fun f => decide ((f.dev, f.ino) = k))) :=
      NewSorted_mem.mpr (List.mem_filter.mpr ⟨hf, by simp [hfk]⟩)
    intro hnil
    rw [hnil] at hmem
    exact absurd hmem (List.not_mem_nil f)

theorem idClasses_member_mem {trust : Bool} {fs : List FileInfo}
    {sg : SiblingGroup} {f : FileInfo}
    (hsg : sg ∈ idClasses trust fs) (hf : f ∈ sg) : f ∈ fs := by
  cases trust with
  | false =>
    have hsg' : sg ∈ inoClasses fs := by simpa [idClasses] using hsg
    unfold inoClasses at hsg'
    obtain ⟨k, -, rfl⟩ := List.mem_map.mp hsg'
    exact (List.mem_filter.mp (NewSorted_mem.mp hf)).1
  | true =>
    have hsg' : sg ∈ devInoClasses fs := by simpa [idClasses] using hsg
    unfold devInoClasses at hsg'
    obtain ⟨k, -, rfl⟩ := List.mem_map.mp hsg'
    exact (List.mem_filter.mp (NewSorted_mem.mp hf)).1

theorem sizeBucket_size {files : List FileInfo} {s : Int} {f : FileInfo}
    (h : f ∈ sizeBucket files s) : f.size = s := by
  unfold sizeBucket at h
  have := (List.mem_filter.mp h).2
  simpa using this

/-- The candidate group built from the size-`k` bucket reports file size
`k` (when it has at least one sibling group with at least one file). -/
theorem kept_group_fileSize (files : List FileInfo) (trust : Bool) (k : Int)
    (h2 : 1 ≤ (NewCandidateGroup (idClasses trust (sizeBucket files k))).length) :
    cgFileSize (NewCandidateGroup (idClasses trust (sizeBucket files k))) = k := by
  set cg := NewCandidateGroup (idClasses trust (sizeBucket files k)) with hcg
  have hne : cg ≠ [] := by
    intro h
    rw [h] at h2
    simp at h2
  have hfirst : cgFirst cg ∈ cg := headD_mem [] hne
  have hcls : cgFirst cg ∈ idClasses trust (sizeBucket files k) := by
    rw [hcg] at hfirst
    exact NewSorted_mem.mp hfirst
  have hnenil : cgFirst cg ≠ [] := idClasses_ne_nil _ hcls
  have hsf : sgFirst (cgFirst cg) ∈ cgFirst cg := headD_mem default hnenil
  have hbucket : sgFirst (cgFirst cg) ∈ sizeBucket files k :=
    idClasses_member_mem hcls hsf
  exact sizeBucket_size hbucket

end Dupedog

namespace Dupedog

/-- The candidate group the screener builds from the size-`k` bucket. -/
def bucketGroup (files : List FileInfo) (trust : Bool) (k : Int) : CandidateGroup :=
  NewCandidateGroup (idClasses trust (sizeBucket files k))

theorem bucketGroup_length (files : List FileInfo) (trust : Bool) (k : Int) :
    (bucketGroup files trust k).length = numIdKeys trust (sizeBucket files k) := by
  unfold bucketGroup NewCandidateGroup
  rw [NewSorted_length, idClasses_length]

theorem screenerRun_eq (files : List FileInfo) (trust : Bool) :
    screenerRun files trust = NewCandidateGroups
      (((files.map (fun f => f.size)).dedup).filterMap (fun k =>
        if 2 ≤ (bucketGroup files trust k).length then
          some (bucketGroup files trust k)
        else none)) := by
  unfold screenerRun bucketBy
  rw [List.filterMap_map]
  refine congrArg NewCandidateGroups (congrFun (congrArg _ (funext fun k => ?_)) _)
  cases trust with
  | false => simp [groupByIno_eq, bucketGroup, idClasses, sizeBucket]
  | true => simp [groupByDevIno_eq, bucketGroup, idClasses, sizeBucket]

theorem countP_bucket_keys (files : List FileInfo) (trust : Bool) (s : Int) :
    ∀ keys : List Int, keys.Nodup →
      ((keys.filterMap (fun k =>
          if 2 ≤ (bucketGroup files trust k).length then
            some (bucketGroup files trust k)
          else none)).countP (fun cg => decide (cgFileSize cg = s)))
      = if s ∈ keys ∧ 2 ≤ (bucketGroup files trust s).length then 1 else 0 := by
  intro keys
  induction keys with
  | nil => intro _; simp
  | cons k rest ih =>
    intro hnd
    obtain ⟨hknotin, hndrest⟩ := List.nodup_cons.mp hnd
    rw [List.filterMap_cons]
    by_cases hkeep : 2 ≤ (bucketGroup files trust k).length
    · rw [if_pos hkeep, List.countP_cons, ih hndrest]
      have hsize : cgFileSize (bucketGroup files trust k) = k :=
        kept_group_fileSize files trust k (by
          unfold bucketGroup at hkeep
          omega)
      by_cases hks : k = s
      · subst hks
        rw [if_neg (show ¬(k ∈ rest ∧ 2 ≤ (bucketGroup files trust k).length) from
          fun h => hknotin h.1)]
        rw [if_pos (show k ∈ k :: rest ∧ 2 ≤ (bucketGroup files trust k).length from
          ⟨List.mem_cons_self _ _, hkeep⟩)]
        simp [hsize]
      · have hp : (decide (cgFileSize (bucketGroup files trust k) = s)) = false := by
          simp [hsize, hks]
        rw [hp]
        have hcond : (s ∈ k :: rest ∧ 2 ≤ (bucketGroup files trust s).length) ↔
            (s ∈ rest ∧ 2 ≤ (bucketGroup files trust s).length) := by
          constructor
          · rintro ⟨hm, hk2⟩
            rcases List.mem_cons.mp hm with rfl | hm
            · exact absurd rfl hks
            · exact ⟨hm, hk2⟩
          · rintro ⟨hm, hk2⟩
            exact ⟨List.mem_cons_of_mem _ hm, hk2⟩
        by_cases hc : s ∈ rest ∧ 2 ≤ (bucketGroup files trust s).length
        · rw [if_pos hc, if_pos (hcond.mpr hc)]
          simp
        · rw [if_neg hc, if_neg (fun h => hc (hcond.mp h))]
          simp
    · rw [if_neg hkeep, ih hndrest]
      by_cases hks : k = s
      · subst hks
        rw [if_neg (fun h => hkeep h.2), if_neg (fun h => hkeep h.2)]
      · have hcond : (s ∈ k :: rest ∧ 2 ≤ (bucketGroup files trust s).length) ↔
            (s ∈ rest ∧ 2 ≤ (bucketGroup files trust s).length) := by
          constructor
          · rintro ⟨hm, hk2⟩
            rcases List.mem_cons.mp hm with rfl | hm
            · exact absurd rfl hks
            · exact ⟨hm, hk2⟩
          · rintro ⟨hm, hk2⟩
            exact ⟨List.mem_cons_of_mem _ hm, hk2⟩
        by_cases hc : s ∈ rest ∧ 2 ≤ (bucketGroup files trust s).length
        · rw [if_pos hc, if_pos (hcond.mpr hc)]
        · rw [if_neg hc, if_neg (fun h => hc (hcond.mp h))]

theorem numIdKeys_pos_mem_sizes (files : List FileInfo) (trust : Bool) (s : Int)
    (h : 1 ≤ numIdKeys trust (sizeBucket files s)) :
    s ∈ (files.map (fun f => f.size)).dedup := by
  have hex : ∃ f, f ∈ sizeBucket files s := by
    cases trust with
    | false =>
      have h' : 1 ≤ (inoKeys (sizeBucket files s)).length := by
        simpa [numIdKeys] using h
      obtain ⟨k, hk⟩ := List.exists_mem_of_length_pos
        (show 0 < (inoKeys (sizeBucket files s)).length by omega)
      obtain ⟨f, hf, -⟩ := inoKeys_mem hk
      exact ⟨f, hf⟩
    | true =>
      have h' : 1 ≤ (devInoKeys (sizeBucket files s)).length := by
        simpa [numIdKeys] using h
      obtain ⟨k, hk⟩ := List.exists_mem_of_length_pos
        (show 0 < (devInoKeys (sizeBucket files s)).length by omega)
      obtain ⟨f, hf, -⟩ := devInoKeys_mem hk
      exact ⟨f, hf⟩
  obtain ⟨f, hf⟩ := hex
  have hsz := sizeBucket_size hf
  have hmem : f ∈ files := (List.mem_filter.mp hf).1
  rw [List.mem_dedup]
  exact List.mem_map.mpr ⟨f, hmem, hsz⟩

end Dupedog

namespace Dupedog

/-- C4: for every size `s`, `Screener.Run` emits exactly one
CandidateGroup for the size-`s` bucket when the bucket has at least two
distinct identity keys and none otherwise; the identity key is the inode
alone when `trust_device_boundaries` is false and `(device, inode)` when
it is true (`numIdKeys`/`idClasses` select the key accordingly); and
every emitted group for size `s` is, up to the sorted order, exactly the
list of identity-key classes of the bucket, each class one SiblingGroup
holding all of that key's paths. -/
theorem screener_spec (files : List FileInfo) (trust : Bool) (s : Int) :
    ((screenerRun files trust).countP (fun cg => decide (cgFileSize cg = s)) =
      if 2 ≤ numIdKeys trust (sizeBucket files s) then 1 else 0)
    ∧ (∀ cg ∈ screenerRun files trust, cgFileSize cg = s →
        2 ≤ numIdKeys trust (sizeBucket files s)
        ∧ cg.Perm (idClasses trust (sizeBucket files s))) := by
  constructor
  · rw [screenerRun_eq]
    unfold NewCandidateGroups
    rw [(NewSorted_perm _ _).countP_eq]
    rw [countP_bucket_keys files trust s _ (List.nodup_dedup _)]
    by_cases h2 : 2 ≤ numIdKeys trust (sizeBucket files s)
    · rw [if_pos ⟨numIdKeys_pos_mem_sizes files trust s (by omega),
        by rw [bucketGroup_length]; exact h2⟩, if_pos h2]
    · rw [if_neg (fun h => h2 (by
        rw [← bucketGroup_length files trust s]; exact h.2)), if_neg h2]
  · intro cg hcg hsz
    rw [screenerRun_eq] at hcg
    have hcg' := (NewSorted_perm (fun cg => (sgFirst (cgFirst cg)).path) _).mem_iff.mp hcg
    obtain ⟨k, hk, hsome⟩ := List.mem_filterMap.mp hcg'
    by_cases hkeep : 2 ≤ (bucketGroup files trust k).length
    · rw [if_pos hkeep] at hsome
      obtain rfl : bucketGroup files trust k = cg := Option.some.inj hsome
      have hk2 : cgFileSize (bucketGroup files trust k) = k :=
        kept_group_fileSize files trust k (by unfold bucketGroup at hkeep; omega)
      obtain rfl : k = s := by rw [hk2] at hsz; exact hsz
      refine ⟨by rw [← bucketGroup_length files trust k]; exact hkeep, ?_⟩
      exact NewSorted_perm _ _
    · rw [if_neg hkeep] at hsome
      exact absurd hsome (by simp)

/-- C4 witness: two distinct-inode files of size 5 yield exactly one
candidate group, equal (up to order) to the two inode classes. -/
theorem screener_spec_witness :
    ((screenerRun
        [{ path := [97], size := 5, mtime := 0, dev := 1, ino := 1, nlink := 1 },
         { path := [98], size := 5, mtime := 0, dev := 1, ino := 2, nlink := 1 }]
        false).countP (fun cg => decide (cgFileSize cg = 5)) =
      if 2 ≤ numIdKeys false (sizeBucket
          [{ path := [97], size := 5, mtime := 0, dev := 1, ino := 1, nlink := 1 },
           { path := [98], size := 5, mtime := 0, dev := 1, ino := 2, nlink := 1 }] 5)
        then 1 else 0)
    ∧ (2 ≤ numIdKeys false (sizeBucket
          [{ path := [97], size := 5, mtime := 0, dev := 1, ino := 1, nlink := 1 },
           { path := [98], size := 5, mtime := 0, dev := 1, ino := 2, nlink := 1 }] 5)
        ∧ (bucketGroup
            [{ path := [97], size := 5, mtime := 0, dev := 1, ino := 1, nlink := 1 },
             { path := [98], size := 5, mtime := 0, dev := 1, ino := 2, nlink := 1 }]
            false 5).Perm
          (idClasses false (sizeBucket
            [{ path := [97], size := 5, mtime := 0, dev := 1, ino := 1, nlink := 1 },
             { path := [98], size := 5, mtime := 0, dev := 1, ino := 2, nlink := 1 }] 5))) := by
  constructor
  · exact (screener_spec _ false 5).1
  · exact (screener_spec _ false 5).2 _ (by decide) (by decide)

end Dupedog

namespace Dupedog

/-! ## C3: one hash (or cache lookup) per SiblingGroup
(`Verifier.verifyFilesInJob`, internal/verifier) -/

/-- A hex digit character code (`encoding/hex` alphabet `0-9a-f`). -/
def hexDigit (n : Nat) : Nat := if n < 10 then 48 + n else 87 + n

/-- `hex.EncodeToString` on a byte string. -/
def hexEncode (bs : List Nat) : GoString :=
  (bs.map (fun b => [hexDigit (b / 16), hexDigit (b % 16)])).flatten

/-- The one content-reading operation performed for a sibling group:
a cache hit, a successful hash of the range, or a failed hash attempt
(the file could not be read; the group is dropped). -/
inductive HashOp where
  | cacheHit (path : GoString) (start size : Int)
  | hashed (path : GoString) (start size : Int)
  | hashFailed (path : GoString) (start size : Int)
deriving Repr, DecidableEq

/-- The path an operation touched. -/
def opPath : HashOp → GoString
  | .cacheHit p _ _ => p
  | .hashed p _ _ => p
  | .hashFailed p _ _ => p

/-- The byte range an operation covered. -/
def opRange : HashOp → Int × Int
  | .cacheHit _ s z => (s, z)
  | .hashed _ s z => (s, z)
  | .hashFailed _ s z => (s, z)

/-- The per-sibling-group body of `verifyFilesInJob`, run for each group
of the job (the goroutines are independent; we thread the cache state
sequentially).  For each group: consult the cache for the representative
`sibs.First()`; on a hit emit the cached hash; on a miss hash the range
via the `hashFn` oracle (`none` = read error: no result emitted), store
the fresh hash in the cache.  Returns published `(hash, group)` pairs,
the trace of content operations, and the final cache. -/
def verifyLoop (hashFn : GoString → Int → Int → Option (List Nat))
    (start size : Int) :
    List SiblingGroup → Cache →
      List (GoString × SiblingGroup) × List HashOp × Cache
  | [], c => ([], [], c)
  | sibs :: rest, c =>
    let rep := sgFirst sibs
    let lk := cacheLookup c rep start size
    match lk.1 with
    | some cachedHash =>
        let r := verifyLoop hashFn start size rest lk.2
        ((hexEncode cachedHash, sibs) :: r.1,
         .cacheHit rep.path start size :: r.2.1, r.2.2)
    | none =>
        match hashFn rep.path start size with
        | none =>
            let r := verifyLoop hashFn start size rest lk.2
            (r.1, .hashFailed rep.path start size :: r.2.1, r.2.2)
        | some hraw =>
            let c2 := (cacheStore lk.2 rep start size hraw).1
            let r := verifyLoop hashFn start size rest c2
            ((hexEncode hraw, sibs) :: r.1,
             .hashed rep.path start size :: r.2.1, r.2.2)

/-- The `byHash` grouping of published results (a Go map; modelled with
first-occurrence order). -/
def groupPairsByHash (rs : List (GoString × SiblingGroup)) :
    List (GoString × List SiblingGroup) :=
  ((rs.map (fun r => r.1)).dedup).map
    (fun h => (h, (rs.filter (fun r => decide (r.1 = h))).map (fun r => r.2)))

/-- `Verifier.verifyFilesInJob`: per-group verification then grouping by
hash. -/
def verifyFilesInJob (hashFn : GoString → Int → Int → Option (List Nat))
    (c : Cache) (j : Job) :
    List (GoString × List SiblingGroup) × List HashOp × Cache :=
  let r := verifyLoop hashFn j.start j.size j.siblings c
  (groupPairsByHash r.1, r.2.1, r.2.2)

end Dupedog

namespace Dupedog

theorem verifyLoop_ops (hashFn : GoString → Int → Int → Option (List Nat))
    (start size : Int) :
    ∀ (groups : List SiblingGroup) (c : Cache),
      ((verifyLoop hashFn start size groups c).2.1.map opPath =
        groups.map (fun sibs => (sgFirst sibs).path))
      ∧ (∀ op ∈ (verifyLoop hashFn start size groups c).2.1,
          opRange op = (start, size))
  | [], c => ⟨rfl, by simp [verifyLoop]⟩
  | sibs :: rest, c => by
    cases h1 : (cacheLookup c (sgFirst sibs) start size).1 with
    | some cachedHash =>
      obtain ⟨ih1, ih2⟩ := verifyLoop_ops hashFn start size rest
        (cacheLookup c (sgFirst sibs) start size).2
      simp only [verifyLoop, h1]
      refine ⟨by simp [opPath, ih1], ?_⟩
      intro op hop
      rcases List.mem_cons.mp hop with rfl | hop
      · rfl
      · exact ih2 op hop
    | none =>
      cases h2 : hashFn (sgFirst sibs).path start size with
      | none =>
        obtain ⟨ih1, ih2⟩ := verifyLoop_ops hashFn start size rest
          (cacheLookup c (sgFirst sibs) start size).2
        simp only [verifyLoop, h1, h2]
        refine ⟨by simp [opPath, ih1], ?_⟩
        intro op hop
        rcases List.mem_cons.mp hop with rfl | hop
        · rfl
        · exact ih2 op hop
      | some hraw =>
        obtain ⟨ih1, ih2⟩ := verifyLoop_ops hashFn start size rest
          ((cacheStore (cacheLookup c (sgFirst sibs) start size).2
            (sgFirst sibs) start size hraw).1)
        simp only [verifyLoop, h1, h2]
        refine ⟨by simp [opPath, ih1], ?_⟩
        intro op hop
        rcases List.mem_cons.mp hop with rfl | hop
        · rfl
        · exact ih2 op hop

/-- C3: for every job, `verifyFilesInJob` performs exactly one content
operation (cache lookup hit, hash, or failed hash attempt) per
SiblingGroup of the job's candidate group — the trace has one entry per
group, on the representative `sibs.First()`'s path, over the job's
range; the representative of a `NewSiblingGroup` is the
lexicographically first path of the group, so no other path is opened or
hashed; and over any list of jobs carrying the same candidate group (the
ranges of the schedule) the total operation count is
`numRanges * numSiblingGroups`. -/
theorem verify_hash_once (hashFn : GoString → Int → Int → Option (List Nat))
    (c : Cache) (j : Job) :
    ((verifyFilesInJob hashFn c j).2.1.length = j.siblings.length)
    ∧ ((verifyFilesInJob hashFn c j).2.1.map opPath =
        j.siblings.map (fun sibs => (sgFirst sibs).path))
    ∧ (∀ op ∈ (verifyFilesInJob hashFn c j).2.1,
        opRange op = (j.start, j.size))
    ∧ (∀ files : List FileInfo, ∀ f ∈ NewSiblingGroup files,
        strLe (sgFirst (NewSiblingGroup files)).path f.path = true)
    ∧ (∀ (cg : CandidateGroup) (js : List Job),
        (∀ jb ∈ js, jb.siblings = cg) →
        (js.map (fun jb => (verifyFilesInJob hashFn c jb).2.1.length)).sum =
          js.length * cg.length) := by
  obtain ⟨hmap, hrange⟩ := verifyLoop_ops hashFn j.start j.size j.siblings c
  have hlen : (verifyFilesInJob hashFn c j).2.1.length = j.siblings.length := by
    have := congrArg List.length hmap
    simpa [verifyFilesInJob] using this
  refine ⟨hlen, by simpa [verifyFilesInJob] using hmap,
    by simpa [verifyFilesInJob] using hrange, ?_, ?_⟩
  · intro files f hf
    exact NewSorted_headD_min (fun f => f.path) files f
      (show f ∈ NewSorted (fun f => f.path) files from hf)
  · intro cg js hall
    induction js with
    | nil => simp
    | cons jb rest ih =>
      have hjb := hall jb (List.mem_cons_self _ _)
      have hjblen : (verifyFilesInJob hashFn c jb).2.1.length = cg.length := by
        obtain ⟨hm, -⟩ := verifyLoop_ops hashFn jb.start jb.size jb.siblings c
        have := congrArg List.length hm
        simpa [verifyFilesInJob, hjb] using this
      rw [List.map_cons, List.sum_cons, hjblen,
        ih (fun x hx => hall x (List.mem_cons_of_mem _ hx)), List.length_cons]
      ring

/-- C3 witness: a two-group job yields exactly two operations, on the
lexicographically first paths. -/
theorem verify_hash_once_witness :
    ((verifyFilesInJob (fun _ _ _ => some (List.replicate 32 1))
        { enabled := false, readDB := none, writeDB := none }
        { siblings := [[{ path := [97], size := 4, mtime := 0, dev := 1, ino := 1,
                          nlink := 1 }],
                       [{ path := [98], size := 4, mtime := 0, dev := 1, ino := 2,
                          nlink := 1 }]],
          start := 0, size := 4, totalBytes := 4 }).2.1.length = 2)
    ∧ ((List.map (fun jb => (verifyFilesInJob
          (fun _ _ _ => some (List.replicate 32 1))
          { enabled := false, readDB := none, writeDB := none } jb).2.1.length)
        [{ siblings := [[{ path := [97], size := 4, mtime := 0, dev := 1, ino := 1,
                           nlink := 1 }],
                        [{ path := [98], size := 4, mtime := 0, dev := 1, ino := 2,
                           nlink := 1 }]],
           start := 0, size := 4, totalBytes := 4 }]).sum = 1 * 2) := by
  constructor
  · exact (verify_hash_once _ _ _).1
  · exact (verify_hash_once (fun _ _ _ => some (List.replicate 32 1))
      { enabled := false, readDB := none, writeDB := none }
      { siblings := [[{ path := [97], size := 4, mtime := 0, dev := 1, ino := 1,
                        nlink := 1 }],
                     [{ path := [98], size := 4, mtime := 0, dev := 1, ino := 2,
                        nlink := 1 }]],
        start := 0, size := 4, totalBytes := 4 }).2.2.2.2
      [[{ path := [97], size := 4, mtime := 0, dev := 1, ino := 1, nlink := 1 }],
       [{ path := [98], size := 4, mtime := 0, dev := 1, ino := 2, nlink := 1 }]]
      [{ siblings := [[{ path := [97], size := 4, mtime := 0, dev := 1, ino := 1,
                         nlink := 1 }],
                      [{ path := [98], size := 4, mtime := 0, dev := 1, ino := 2,
                         nlink := 1 }]],
         start := 0, size := 4, totalBytes := 4 }]
      (by intro jb hjb; rw [List.mem_singleton] at hjb; subst hjb; rfl)

end Dupedog

namespace Dupedog

/-! ## C9: `parseSize` (cmd/dupedog/util.go) -/

/-- ASCII lower-casing of a byte. -/
def toLowerByte (b : Nat) : Nat := if 65 ≤ b ∧ b ≤ 90 then b + 32 else b

/-- Whether a byte is an ASCII decimal digit. -/
def isDigit (b : Nat) : Bool := decide (48 ≤ b ∧ b ≤ 57)

/-- Split a string into its leading decimal-digit span and the rest. -/
def takeDigits : GoString → GoString × GoString
  | [] => ([], [])
  | b :: bs =>
      if isDigit b then
        let r := takeDigits bs
        (b :: r.1, r.2)
      else ([], b :: bs)

/-- The value of a decimal-digit string. -/
def digitsToNat (ds : GoString) : Nat :=
  ds.foldl (fun a d => a * 10 + (d - 48)) 0

/-- Modelled from the spec: the multiplier table of the human-readable
size syntax — no suffix is bytes, the SI suffixes `k`, `M`, `G` are
1000-based and the IEC suffixes `KiB`, `MiB`, `GiB` are 1024-based
(suffixes are matched case-insensitively); anything else is malformed. -/
def suffixMult (sfx : GoString) : Option Nat :=
  let l := sfx.map toLowerByte
  if l = [] then some 1
  else if l = [107] then some 1000
  else if l = [109] then some 1000000
  else if l = [103] then some 1000000000
  else if l = [107, 105, 98] then some 1024
  else if l = [109, 105, 98] then some 1048576
  else if l = [103, 105, 98] then some 1073741824
  else none

/-- Modelled from the spec: `humanize.ParseBytes`, the human-readable
size parser of the third-party go-humanize dependency, which is not part
of this repository's src/.  Per the spec's flag table it parses a
decimal byte count with an optional SI or IEC suffix and rejects
negatives (a leading `-` is not a digit), malformed inputs, and values
exceeding the representable signed 64-bit byte count. -/
def ParseBytes (s : GoString) : Option Nat :=
  let p := takeDigits s
  if p.1 = [] then none
  else
    match suffixMult p.2 with
    | none => none
    | some m =>
        let v := digitsToNat p.1 * m
        if v ≤ 9223372036854775807 then some v else none

/-- `parseSize` (cmd/dupedog/util.go): delegate to `ParseBytes` and
return the byte count as an `int64`. -/
def parseSize (s : GoString) : Option Int :=
  (ParseBytes s).map (fun n => (n : Int))

/-- C9: `parseSize` rejects negatives (any input starting with `-`),
malformed inputs (no leading digits, or an unknown suffix) and overflow
(a denoted value beyond the signed 64-bit byte count); every returned
value is a non-negative in-range `int64`; and on well-formed input it
returns the exact denoted byte count, with the SI suffixes 1000-based
and the IEC suffixes 1024-based. -/
theorem parseSize_spec :
    (∀ s : GoString, s.head? = some 45 → parseSize s = none)
    ∧ (∀ s : GoString, (takeDigits s).1 = [] → parseSize s = none)
    ∧ (∀ s : GoString, suffixMult (takeDigits s).2 = none → parseSize s = none)
    ∧ (∀ (s : GoString) (m : Nat), suffixMult (takeDigits s).2 = some m →
        9223372036854775807 < digitsToNat (takeDigits s).1 * m →
        parseSize s = none)
    ∧ (∀ (s : GoString) (n : Int), parseSize s = some n →
        0 ≤ n ∧ n ≤ 9223372036854775807)
    ∧ (∀ (s : GoString) (m : Nat), (takeDigits s).1 ≠ [] →
        suffixMult (takeDigits s).2 = some m →
        digitsToNat (takeDigits s).1 * m ≤ 9223372036854775807 →
        parseSize s = some ((digitsToNat (takeDigits s).1 * m : Nat) : Int))
    ∧ (suffixMult [107] = some 1000 ∧ suffixMult [77] = some 1000000
       ∧ suffixMult [71] = some 1000000000
       ∧ suffixMult [75, 105, 66] = some 1024
       ∧ suffixMult [77, 105, 66] = some 1048576
       ∧ suffixMult [71, 105, 66] = some 1073741824) := by
  have hPB : ∀ s : GoString, ParseBytes s =
      (if (takeDigits s).1 = [] then none
       else
         match suffixMult (takeDigits s).2 with
         | none => none
         | some m =>
             if digitsToNat (takeDigits s).1 * m ≤ 9223372036854775807 then
               some (digitsToNat (takeDigits s).1 * m)
             else none) := fun s => rfl
  refine ⟨?_, ?_, ?_, ?_, ?_, ?_, ⟨rfl, rfl, rfl, rfl, rfl, rfl⟩⟩
  · intro s hs
    cases s with
    | nil => simp at hs
    | cons b bs =>
      obtain rfl : b = 45 := by simpa using hs
      have : ParseBytes (45 :: bs) = none := by
        rw [hPB]
        simp [takeDigits, isDigit]
      simp [parseSize, this]
  · intro s hd
    have : ParseBytes s = none := by
      rw [hPB, if_pos hd]
    simp [parseSize, this]
  · intro s hsfx
    have : ParseBytes s = none := by
      rw [hPB]
      by_cases hd : (takeDigits s).1 = []
      · rw [if_pos hd]
      · rw [if_neg hd, hsfx]
    simp [parseSize, this]
  · intro s m hsfx hover
    have : ParseBytes s = none := by
      rw [hPB]
      by_cases hd : (takeDigits s).1 = []
      · rw [if_pos hd]
      · rw [if_neg hd, hsfx]
        simp only
        rw [if_neg (by omega)]
    simp [parseSize, this]
  · intro s n hn
    rcases hpb : ParseBytes s with - | v
    · simp [parseSize, hpb] at hn
    · have hv : v ≤ 9223372036854775807 := by
        rw [hPB] at hpb
        by_cases hd : (takeDigits s).1 = []
        · rw [if_pos hd] at hpb
          simp at hpb
        · rw [if_neg hd] at hpb
          cases hsfx : suffixMult (takeDigits s).2 with
          | none => rw [hsfx] at hpb; simp at hpb
          | some m =>
            rw [hsfx] at hpb
            simp only at hpb
            by_cases hle : digitsToNat (takeDigits s).1 * m ≤ 9223372036854775807
            · rw [if_pos hle] at hpb
              obtain rfl : digitsToNat (takeDigits s).1 * m = v := by simpa using hpb
              exact hle
            · rw [if_neg hle] at hpb
              simp at hpb
      obtain rfl : ((v : Nat) : Int) = n := by simpa [parseSize, hpb] using hn
      exact ⟨by positivity, by exact_mod_cast hv⟩
  · intro s m hd hsfx hv
    have : ParseBytes s = some (digitsToNat (takeDigits s).1 * m) := by
      rw [hPB, if_neg hd, hsfx]
      simp only
      rw [if_pos hv]
    simp [parseSize, this]

/-- C9 witness: `parseSize "-1"` and `parseSize "1x"` are rejected,
`parseSize` of `10000000000G` overflows, and `parseSize "3KiB"` returns
exactly 3072. -/
theorem parseSize_spec_witness :
    ([45, 49] : GoString).head? = some 45
    ∧ parseSize [45, 49] = none
    ∧ suffixMult (takeDigits [49, 120]).2 = none
    ∧ parseSize [49, 120] = none
    ∧ parseSize [49, 48, 48, 48, 48, 48, 48, 48, 48, 48, 48, 71] = none
    ∧ parseSize [51, 75, 105, 66] = some 3072 := by
  refine ⟨rfl, ?_, rfl, ?_, ?_, ?_⟩
  · exact parseSize_spec.1 [45, 49] rfl
  · exact parseSize_spec.2.2.1 [49, 120] rfl
  · exact parseSize_spec.2.2.2.1 [49, 48, 48, 48, 48, 48, 48, 48, 48, 48, 48, 71]
      1000000000 rfl (by norm_num [takeDigits, digitsToNat, isDigit])
  · have := parseSize_spec.2.2.2.2.2.1 [51, 75, 105, 66] 1024
      (by decide) rfl (by decide)
    simpa using this

end Dupedog
